import Mathlib

set_option linter.unusedSectionVars false

/-!
Shallow embedding of the generic `singleflight` package
(`src/singleflight/group.go` plus the unnamed parts holding
`ResultContainer`, `panicError`/`newPanicError`/`errGoexit`, `supplier`,
and `call`).

Modelling conventions:
* Machine state is explicit: the `Group`'s mutable data (`g.workspaces`,
  the per-call records, the channels created by `DoChan`, the messages
  sent on them) lives in a `GState`.  Every mutex-protected critical
  section of the Go code is one atomic `Action`; interleavings of
  concurrent goroutines are lists of actions, executed by `step`/`run`.
* Go `error` interface values are embedded as the inductive `GoError`.
  A `*panicError[T]` value carries the Go type argument `T` it was
  instantiated at, as a `GoTypeTag`, because Go's type assertion
  `e.(*panicError[B])` succeeds only when the dynamic type argument is
  exactly `B`.  `newPanicError` is called (group.go line 132) as
  `newPanicError(r)` with `r := recover()` of type `interface{}`, so its
  type parameter is inferred as `interface{}`: the tag of every stored
  panic error is `anyTy`.  The group's own value type `B` may or may not
  be `interface{}`; the model parameter `bIsAny : Bool` records which.
* Panic payloads are embedded by their `%v` rendering and stacks by
  their byte text, both as `List Char` (Go `[]byte` of ASCII text).
  Since Go 1.21 a recovered panic value is never nil, so every panic
  carries a payload.
* Values of type `B` are `Option B`: `none` is Go's zero value of `B`,
  the content of `c.val` before any assignment.
-/

namespace Singleflight

/-- Go type arguments that can appear on a `*panicError[_]` value in this
package: `interface{}` (the inferred argument at `newPanicError`'s only
call site) or the group's value type `B` (the assertion target in `Do`
and `doCall` when `B` is not `interface{}`). -/
inductive GoTypeTag where
  | anyTy
  | groupBTy
deriving DecidableEq, Repr

/-- The Go type argument of the assertions `c.err.(*panicError[B])` in
`Do` (line 33) and `doCall` (line 102): it is the group's `B`, which is
`interface{}` exactly when `bIsAny` is true. -/
def tagOfGroupB (bIsAny : Bool) : GoTypeTag :=
  if bIsAny then .anyTy else .groupBTy

/-- Go `error` interface values that occur in this package: the nil
error, the package sentinel `errGoexit`, a `*panicError[tag]` holding a
panic payload and a stack snapshot, and any other (caller-made) error
value identified by its message. -/
inductive GoError where
  | nil
  | goexitSentinel
  | panicErr (tag : GoTypeTag) (pv : List Char) (stack : List Char)
  | other (msg : List Char)
deriving DecidableEq, Repr

/-- The type assertion `c.err.(*panicError[B])` of group.go lines 33 and
102: it succeeds iff the error is a `*panicError[_]` whose type argument
equals the group's `B`. -/
def isPanicErrorB (bIsAny : Bool) : GoError → Bool
  | .panicErr tag _ _ => tag == tagOfGroupB bIsAny
  | _ => false

/-- The comparison `c.err == errGoexit` (interface identity with the
package-private sentinel, group.go lines 35 and 111). -/
def isGoexitSentinel : GoError → Bool
  | .goexitSentinel => true
  | _ => false

/-- The stack-trimming step of `newPanicError` (part_001 lines 29-34):
`bytes.IndexByte(stack, '\n')`, and when a newline exists the slice
`stack[line+1:]`; an unchanged stack otherwise. -/
def trimFirstLine (stack : List Char) : List Char :=
  if '\n' ∈ stack then stack.drop (stack.indexOf '\n' + 1) else stack

/-- Embeds `newPanicError` (part_001 lines 26-36) applied, as at its only
call site (group.go line 132), to the `interface{}`-typed result of
`recover()`: the type parameter is inferred as `interface{}`, so the
produced `*panicError[_]` carries tag `anyTy`.  `stack` is the raw
`debug.Stack()` text. -/
def newPanicError (pv : List Char) (stack : List Char) : GoError :=
  .panicErr .anyTy pv (trimFirstLine stack)

/-- Embeds `(p *panicError[B]).Error()` (part_001 lines 22-24):
`fmt.Sprintf("%v\n\n%s", p.value, p.stack)`, with `pv` the `%v`
rendering of the recovered value. -/
def panicErrorString (pv stack : List Char) : List Char :=
  pv ++ '\n' :: '\n' :: stack

/-- Embeds the `ResultContainer` struct of part_000. -/
structure ResultContainer (B : Type) where
  value : Option B
  Err : GoError
  Shared : Bool
deriving DecidableEq, Repr

/-- The branch taken by `doCall`'s outer defer after cleanup (group.go
lines 102-118): rethrow the panic on the executing goroutine (line 109),
crash the process from a fresh goroutine while the executor blocks in
`select {}` (lines 106-107), fall through quietly because the goroutine
is already exiting (line 112), or fan the result out to the registered
channels (lines 115-117). -/
inductive CompletionEffect where
  | normalFanout
  | rethrow
  | crash
  | goexitQuiet
deriving DecidableEq, Repr

/-- Embeds the `call` struct of part_003.  `key` records the `key`
argument `doCall` receives for this record (group.go line 81); `done`
is the state of `waitGroup` (`false` until `waitGroup.Done()` runs);
`effect` records which branch of `doCall`'s outer defer (group.go lines
102-118) ran at completion, `none` before completion.  Channels are
identified by the numeric order of their creation. -/
structure CallState (A B : Type) where
  key : A
  dups : Nat
  chans : List Nat
  done : Bool
  val : Option B
  err : GoError
  effect : Option CompletionEffect
deriving DecidableEq

/-- The three ways the supplier `fn` can terminate inside `doCall`'s
inner closure (group.go lines 121-139): return `(v, e)` through ordinary
control flow, panic with a payload, or call `runtime.Goexit`. -/
inductive Outcome (B : Type) where
  | normal (v : B) (e : GoError)
  | panicked (pv : List Char)
  | goexit

/-- Embeds the whole `Group[A, B]` state plus the channel world around
it: `workspaces` is `g.workspaces` (a nil/empty Go map and a made empty
map behave identically on lookup, so lazy initialization at lines 25-27
and 59-61 is invisible to the model); `calls` gives every call record
ever allocated, by allocation order; `chanCap` gives each channel
created so far its buffer capacity; `sent` logs every value sent on any
channel, in order; `crashed` records whether a completion took the
unrecoverable `go panic(e)` path of line 106. -/
structure GState (A B : Type) where
  workspaces : A → Option Nat
  calls : Nat → Option (CallState A B)
  nextCall : Nat
  nextChan : Nat
  chanCap : Nat → Option Nat
  sent : List (Nat × ResultContainer B)
  crashed : Bool

/-- The empty group: nil map, no calls, no channels (group.go line 10-13
zero value). -/
def GState.empty (A B : Type) : GState A B :=
  { workspaces := fun _ => none
    calls := fun _ => none
    nextCall := 0
    nextChan := 0
    chanCap := fun _ => none
    sent := []
    crashed := false }

/-- A freshly allocated call record: `new(call[B])` (group.go line 40)
or the literal of line 68 before its `chans` is set; all fields are Go
zero values. -/
def newCall {A B : Type} (k : A) : CallState A B :=
  { key := k, dups := 0, chans := [], done := false, val := none
    err := .nil, effect := none }

/-- The record update performed by `doCall`'s inner closure together
with the first conditional of the outer defer (group.go lines 89-93 and
121-143): a normal return stores `(v, e)` verbatim (line 137); a panic
is recovered and stored via `newPanicError` (lines 131-133), with
`stack` the raw `debug.Stack()` text at interception; a `runtime.Goexit`
leaves both fields unassigned and the outer defer stores the sentinel
(lines 91-93, since neither `normalReturn` nor `recovered` was set). -/
def applyOutcome {A B : Type} (stack : List Char) (o : Outcome B)
    (c : CallState A B) : CallState A B :=
  match o with
  | .normal v e => { c with val := some v, err := e }
  | .panicked pv => { c with err := newPanicError pv stack }
  | .goexit => { c with err := .goexitSentinel }

/-- The branch selection of `doCall`'s outer defer (group.go lines
102-118), evaluated on the record after `applyOutcome`. -/
def completionEffect {A B : Type} (bIsAny : Bool) (c : CallState A B) :
    CompletionEffect :=
  if isPanicErrorB bIsAny c.err then
    if c.chans.isEmpty then .rethrow else .crash
  else if isGoexitSentinel c.err then .goexitQuiet
  else .normalFanout

/-- The envelope `ResultContainer[B]{c.val, c.err, c.dups > 0}` sent to
each registered channel on the normal-return branch (group.go line
116). -/
def mkEnvelope {A B : Type} (c : CallState A B) : ResultContainer B :=
  ⟨c.val, c.err, decide (c.dups > 0)⟩

/-- What a woken synchronous duplicate does (group.go lines 31-38):
after `c.waitGroup.Wait()` it re-panics if the stored error asserts as
`*panicError[B]`, force-exits if it is the `errGoexit` sentinel, and
otherwise returns `(c.val, c.err, true)`. -/
inductive DupResult (B : Type) where
  | panicked (e : GoError)
  | goexited
  | returned (v : Option B) (e : GoError) (shared : Bool)
deriving DecidableEq, Repr

/-- Evaluates group.go lines 33-38 on a completed call record. -/
def dupWake {A B : Type} (bIsAny : Bool) (c : CallState A B) :
    DupResult B :=
  if isPanicErrorB bIsAny c.err then .panicked c.err
  else if isGoexitSentinel c.err then .goexited
  else .returned c.val c.err true

/-- How control leaves `Do` on the initiating caller's thread after the
inline `g.doCall` (group.go lines 45-46): a plain return of
`(c.val, c.err, c.dups > 0)` when the completion fanned out normally;
a propagated panic when the defer re-panicked (line 109); a blocked
thread with the process crashing when lines 106-107 ran; goroutine
teardown when the supplier force-exited. -/
inductive InitResult (B : Type) where
  | returned (v : Option B) (e : GoError) (shared : Bool)
  | panicked (e : GoError)
  | blockedCrash
  | goexited
deriving DecidableEq, Repr

/-- Evaluates the initiating `Do` caller's fate from the completed
record. -/
def initResult {A B : Type} (bIsAny : Bool) (c : CallState A B) :
    InitResult B :=
  match completionEffect bIsAny c with
  | .normalFanout => .returned c.val c.err (decide (c.dups > 0))
  | .rethrow => .panicked c.err
  | .crash => .blockedCrash
  | .goexitQuiet => .goexited

/-- The buffer capacity `DoChan` creates its channel with:
`make(chan ResultContainer[B], 1)` (group.go line 57). -/
def doChanBufferCap : Nat := 1

/-- One mutex-protected critical section of the Go code, as an atomic
action.  `doJoin k` is `Do`'s locked entry section (lines 24-43);
`doChanJoin k` is `DoChan`'s channel creation plus locked entry section
(lines 57-71); `complete cid o stack` is the supplier run of the call
record `cid` terminating with outcome `o` followed by `doCall`'s locked
deferred completion (lines 89-119); `forget k` is `Forget` (lines
149-153). -/
inductive Action (A B : Type) where
  | doJoin (k : A)
  | doChanJoin (k : A)
  | complete (cid : Nat) (o : Outcome B) (stack : List Char)
  | forget (k : A)

/-- Replaces the record stored for `cid`. -/
def GState.updCall {A B : Type} (s : GState A B) (cid : Nat)
    (c : CallState A B) : GState A B :=
  { s with calls := fun i => if i = cid then some c else s.calls i }

/-- The record as `doCall`'s deferred completion leaves it: the
supplier's outcome applied, `waitGroup.Done()` fired, and the taken
branch recorded. -/
def completeCall {A B : Type} (bIsAny : Bool) (stack : List Char)
    (o : Outcome B) (c : CallState A B) : CallState A B :=
  let c1 := applyOutcome stack o c
  { c1 with done := true, effect := some (completionEffect bIsAny c1) }

/-- The envelopes the completion pushes: one per registered channel on
the normal-return branch (group.go lines 115-117), none on the other
branches. -/
def completeSends {A B : Type} (bIsAny : Bool) (stack : List Char)
    (o : Outcome B) (c : CallState A B) :
    List (Nat × ResultContainer B) :=
  let c2 := completeCall bIsAny stack o c
  if c2.effect = some CompletionEffect.normalFanout then
    c2.chans.map (fun ch => (ch, mkEnvelope c2))
  else []

/-- Executes one atomic action.  `none` means the action's precondition
does not hold in `s` (no such record, or a second completion of an
already completed call): such an action cannot be scheduled. -/
def step {A B : Type} [DecidableEq A] (bIsAny : Bool) (s : GState A B) :
    Action A B → Option (GState A B)
  | .doJoin k =>
    match s.workspaces k with
    | some cid =>
      match s.calls cid with
      | some c => some (s.updCall cid { c with dups := c.dups + 1 })
      | none => none
    | none =>
      some { s.updCall s.nextCall (newCall k) with
             workspaces := fun k' =>
               if k' = k then some s.nextCall else s.workspaces k'
             nextCall := s.nextCall + 1 }
  | .doChanJoin k =>
    let ch := s.nextChan
    let s1 : GState A B :=
      { s with nextChan := s.nextChan + 1
               chanCap := fun i => if i = ch then some 1 else s.chanCap i }
    match s.workspaces k with
    | some cid =>
      match s.calls cid with
      | some c =>
        some (s1.updCall cid
          { c with dups := c.dups + 1, chans := c.chans ++ [ch] })
      | none => none
    | none =>
      some { s1.updCall s.nextCall { newCall k with chans := [ch] } with
             workspaces := fun k' =>
               if k' = k then some s.nextCall else s.workspaces k'
             nextCall := s.nextCall + 1 }
  | .complete cid o stack =>
    match s.calls cid with
    | some c =>
      if c.done then none
      else
        some { s.updCall cid (completeCall bIsAny stack o c) with
               workspaces := fun k' =>
                 if s.workspaces c.key = some cid ∧ k' = c.key then none
                 else s.workspaces k'
               sent := s.sent ++ completeSends bIsAny stack o c
               crashed := s.crashed ||
                 ((completeCall bIsAny stack o c).effect ==
                   some CompletionEffect.crash) }
    | none => none
  | .forget k =>
    some { s with workspaces := fun k' =>
             if k' = k then none else s.workspaces k' }

/-- Executes a list of atomic actions in order. -/
def run {A B : Type} [DecidableEq A] (bIsAny : Bool) (s : GState A B) :
    List (Action A B) → Option (GState A B)
  | [] => some s
  | a :: tr =>
    match step bIsAny s a with
    | some s' => run bIsAny s' tr
    | none => none

/-- Whether the action is a `Do` or `DoChan` request for key `k`. -/
def isJoinFor {A B : Type} [DecidableEq A] (k : A) : Action A B → Bool
  | .doJoin k' => k' == k
  | .doChanJoin k' => k' == k
  | _ => false

/-- Whether, executed in state `s`, the action starts a new execution
for `k` (a join that misses the registry and therefore allocates a call
record and invokes the supplier once for it). -/
def createsNow {A B : Type} [DecidableEq A] (s : GState A B)
    (a : Action A B) (k : A) : Bool :=
  isJoinFor k a && (s.workspaces k).isNone

/-- Number of new executions for `k` started along a trace. -/
def creations {A B : Type} [DecidableEq A] (bIsAny : Bool) (k : A) :
    GState A B → List (Action A B) → Nat
  | _, [] => 0
  | s, a :: tr =>
    (if createsNow s a k then 1 else 0) +
      match step bIsAny s a with
      | some s' => creations bIsAny k s' tr
      | none => 0

/-- Number of join requests (`Do` or `DoChan`) for key `k` in a trace. -/
def joinCount {A B : Type} [DecidableEq A] (k : A)
    (tr : List (Action A B)) : Nat :=
  (tr.filter (isJoinFor k)).length

/-- Number of values ever sent on channel `ch` according to the log. -/
def sendCount {B : Type} (l : List (Nat × ResultContainer B))
    (ch : Nat) : Nat :=
  l.countP (fun p => p.1 == ch)

/-- Sum of `f` over `0, ..., n-1`. -/
def sumBelow (n : Nat) (f : Nat → Nat) : Nat :=
  match n with
  | 0 => 0
  | m + 1 => sumBelow m f + f m

/-- Number of registrations of channel `ch` in the record of call `cid`
(0 when there is no such record). -/
def callChanCount {A B : Type} (s : GState A B) (ch cid : Nat) : Nat :=
  match s.calls cid with
  | some c => c.chans.count ch
  | none => 0

/-- Total number of registrations of channel `ch` across every call
record in existence. -/
def occAll {A B : Type} (s : GState A B) (ch : Nat) : Nat :=
  sumBelow s.nextCall (fun cid => callChanCount s ch cid)

/-- Contribution of call `cid` to the sends owed to channel `ch`: one
envelope per registration, once the call has completed through the
normal-return branch. -/
def expectedAt {A B : Type} (s : GState A B) (ch cid : Nat) : Nat :=
  match s.calls cid with
  | some c =>
    if c.done && (c.effect == some CompletionEffect.normalFanout) then
      c.chans.count ch
    else 0
  | none => 0

/-- Number of sends channel `ch` has been owed by completed fan-outs:
each call that completed through the normal-return branch sent one
envelope per registration of `ch` in its `chans`. -/
def expectedSends {A B : Type} (s : GState A B) (ch : Nat) : Nat :=
  sumBelow s.nextCall (fun cid => expectedAt s ch cid)

/-- Well-formedness of a reachable state: allocation counters bound the
live records and channels, the registry only holds live (uncompleted)
records under their own key, every channel is registered at most once
overall, the send log is exactly what the completed fan-outs produced,
and every created channel has buffer capacity 1. -/
structure WF {A B : Type} (s : GState A B) : Prop where
  callsFresh : ∀ cid, s.nextCall ≤ cid → s.calls cid = none
  regValid : ∀ k cid, s.workspaces k = some cid →
    ∃ c, s.calls cid = some c ∧ c.done = false ∧ c.key = k
  doneHasEffect : ∀ cid c, s.calls cid = some c →
    (c.done = true ↔ c.effect.isSome)
  chanFresh : ∀ ch, s.nextChan ≤ ch → occAll s ch = 0
  chanOnce : ∀ ch, occAll s ch ≤ 1
  sentEq : ∀ ch, sendCount s.sent ch = expectedSends s ch
  sentContent : ∀ p, p ∈ s.sent → ∃ cid c, s.calls cid = some c ∧
    c.done = true ∧ c.effect = some CompletionEffect.normalFanout ∧
    p.1 ∈ c.chans ∧ p.2 = mkEnvelope c
  capSet : ∀ ch, ch < s.nextChan ↔ s.chanCap ch = some doChanBufferCap

end Singleflight

namespace Singleflight

/-- Concrete example group over `Nat` keys and values, for witnesses. -/
def exEmptyNN : GState Nat Nat := GState.empty Nat Nat

/-- State after one synchronous join for key 0 (call 0 in flight, its
initiator being the only joiner). -/
def exJoin1 : GState Nat Nat :=
  (run false exEmptyNN [Action.doJoin 0]).getD exEmptyNN

/-- State after the call of `exJoin1` terminates by forced-exit. -/
def exGoexitDone : GState Nat Nat :=
  (step false exJoin1 (Action.complete 0 Outcome.goexit [])).getD exEmptyNN

/-- State after a duplicate synchronous join and a normal completion,
run from `exJoin1`. -/
def exC1Final : GState Nat Nat :=
  (run false exJoin1 [Action.doJoin 0,
    Action.complete 0 (Outcome.normal 7 GoError.nil) []]).getD exEmptyNN

/-- State after one asynchronous join for key 0 and a normal
completion. -/
def exC5Final : GState Nat Nat :=
  (run false exEmptyNN [Action.doChanJoin 0,
    Action.complete 0 (Outcome.normal 7 GoError.nil) []]).getD exEmptyNN

/-- State after an asynchronous duplicate attaches to the call of
`exJoin1` and the call completes normally. -/
def exC6Final : GState Nat Nat :=
  (run false exJoin1 [Action.doChanJoin 0,
    Action.complete 0 (Outcome.normal 5 GoError.nil) []]).getD exEmptyNN

/-- State after a synchronous duplicate attaches to the call of
`exJoin1` and the call completes normally. -/
def exC7Final : GState Nat Nat :=
  (run false exJoin1 [Action.doJoin 0,
    Action.complete 0 (Outcome.normal 9 GoError.nil) []]).getD exEmptyNN

/-- State after an asynchronous join for key 3 and a normal
completion. -/
def exC10Final : GState Nat Nat :=
  (run false exEmptyNN [Action.doChanJoin 3,
    Action.complete 0 (Outcome.normal 2 GoError.nil) []]).getD exEmptyNN

/-- State after `Forget 0` is issued while the call of `exJoin1` is in
flight. -/
def exC9s1 : GState Nat Nat :=
  (step false exJoin1 (Action.forget 0)).getD exEmptyNN

/-- State after a new join for key 0 arrives post-Forget, while call 0
is still running: two executions for key 0 are now in flight. -/
def exC9s2 : GState Nat Nat :=
  (step false exC9s1 (Action.doJoin 0)).getD exEmptyNN

/-- State after the first (forgotten) call finally completes. -/
def exC9sF : GState Nat Nat :=
  (step false exC9s2
    (Action.complete 0 (Outcome.normal 4 GoError.nil) [])).getD exEmptyNN

section Lemmas

variable {A B : Type} [DecidableEq A]

theorem sumBelow_congr {n : Nat} {f g : Nat → Nat}
    (h : ∀ i, i < n → f i = g i) : sumBelow n f = sumBelow n g := by
  induction n with
  | zero => rfl
  | succ m ih =>
    simp only [sumBelow]
    rw [ih (fun i hi => h i (Nat.lt_succ_of_lt hi)), h m (Nat.lt_succ_self m)]

theorem le_sumBelow {n j : Nat} {f : Nat → Nat} (hj : j < n) :
    f j ≤ sumBelow n f := by
  induction n with
  | zero => omega
  | succ m ih =>
    simp only [sumBelow]
    rcases Nat.lt_succ_iff_lt_or_eq.mp hj with h | h
    · exact Nat.le_trans (ih h) (Nat.le_add_right _ _)
    · subst h; exact Nat.le_add_left _ _

theorem pair_le_sumBelow {n i j : Nat} {f : Nat → Nat} (hi : i < n)
    (hj : j < n) (hij : i ≠ j) : f i + f j ≤ sumBelow n f := by
  induction n with
  | zero => omega
  | succ m ih =>
    simp only [sumBelow]
    rcases Nat.lt_succ_iff_lt_or_eq.mp hi with h1 | h1
    · rcases Nat.lt_succ_iff_lt_or_eq.mp hj with h2 | h2
      · exact Nat.le_trans (ih h1 h2) (Nat.le_add_right _ _)
      · subst h2
        have := @le_sumBelow _ _ f h1
        omega
    · subst h1
      rcases Nat.lt_succ_iff_lt_or_eq.mp hj with h2 | h2
      · have := @le_sumBelow _ _ f h2
        omega
      · omega

theorem sumBelow_add_point {n j d : Nat} {f g : Nat → Nat} (hj : j < n)
    (h : ∀ i, i < n → i ≠ j → g i = f i) (hd : g j = f j + d) :
    sumBelow n g = sumBelow n f + d := by
  induction n with
  | zero => omega
  | succ m ih =>
    simp only [sumBelow]
    rcases Nat.lt_succ_iff_lt_or_eq.mp hj with h1 | h1
    · have hrec := ih h1 (fun i hi hne => h i (Nat.lt_succ_of_lt hi) hne)
      have hm : g m = f m := h m (Nat.lt_succ_self m) (by omega)
      omega
    · subst h1
      have hc : sumBelow j g = sumBelow j f :=
        sumBelow_congr (fun i hi => h i (Nat.lt_succ_of_lt hi) (by omega))
      omega

theorem sendCount_append {l1 l2 : List (Nat × ResultContainer B)}
    {ch : Nat} :
    sendCount (l1 ++ l2) ch = sendCount l1 ch + sendCount l2 ch :=
  List.countP_append _ _ _

theorem sendCount_map_chans {chans : List Nat} {env : ResultContainer B}
    {ch : Nat} :
    sendCount (chans.map (fun c => (c, env))) ch = chans.count ch := by
  induction chans with
  | nil => rfl
  | cons a l ih =>
    simp only [List.map_cons, sendCount, List.countP_cons, List.count_cons]
    simp only [sendCount] at ih
    rw [ih]

@[simp] theorem updCall_calls {s : GState A B} {cid : Nat}
    {c : CallState A B} {i : Nat} :
    (s.updCall cid c).calls i = if i = cid then some c else s.calls i :=
  rfl

@[simp] theorem updCall_workspaces {s : GState A B} {cid : Nat}
    {c : CallState A B} : (s.updCall cid c).workspaces = s.workspaces :=
  rfl

@[simp] theorem updCall_nextCall {s : GState A B} {cid : Nat}
    {c : CallState A B} : (s.updCall cid c).nextCall = s.nextCall := rfl

@[simp] theorem updCall_nextChan {s : GState A B} {cid : Nat}
    {c : CallState A B} : (s.updCall cid c).nextChan = s.nextChan := rfl

@[simp] theorem updCall_sent {s : GState A B} {cid : Nat}
    {c : CallState A B} : (s.updCall cid c).sent = s.sent := rfl

@[simp] theorem updCall_chanCap {s : GState A B} {cid : Nat}
    {c : CallState A B} : (s.updCall cid c).chanCap = s.chanCap := rfl

@[simp] theorem applyOutcome_key {stack : List Char} {o : Outcome B}
    {c : CallState A B} : (applyOutcome stack o c).key = c.key := by
  cases o <;> rfl

@[simp] theorem applyOutcome_dups {stack : List Char} {o : Outcome B}
    {c : CallState A B} : (applyOutcome stack o c).dups = c.dups := by
  cases o <;> rfl

@[simp] theorem applyOutcome_chans {stack : List Char} {o : Outcome B}
    {c : CallState A B} : (applyOutcome stack o c).chans = c.chans := by
  cases o <;> rfl

@[simp] theorem applyOutcome_done {stack : List Char} {o : Outcome B}
    {c : CallState A B} : (applyOutcome stack o c).done = c.done := by
  cases o <;> rfl

@[simp] theorem completeCall_key {bIsAny : Bool} {stack : List Char}
    {o : Outcome B} {c : CallState A B} :
    (completeCall bIsAny stack o c).key = c.key := by
  cases o <;> rfl

@[simp] theorem completeCall_dups {bIsAny : Bool} {stack : List Char}
    {o : Outcome B} {c : CallState A B} :
    (completeCall bIsAny stack o c).dups = c.dups := by
  cases o <;> rfl

@[simp] theorem completeCall_chans {bIsAny : Bool} {stack : List Char}
    {o : Outcome B} {c : CallState A B} :
    (completeCall bIsAny stack o c).chans = c.chans := by
  cases o <;> rfl

@[simp] theorem completeCall_done {bIsAny : Bool} {stack : List Char}
    {o : Outcome B} {c : CallState A B} :
    (completeCall bIsAny stack o c).done = true := by
  cases o <;> rfl

@[simp] theorem completeCall_effect {bIsAny : Bool} {stack : List Char}
    {o : Outcome B} {c : CallState A B} :
    (completeCall bIsAny stack o c).effect =
      some (completionEffect bIsAny (applyOutcome stack o c)) := by
  cases o <;> rfl

theorem step_doJoin_attach {bIsAny : Bool} {s : GState A B} {k : A}
    {cid : Nat} {c : CallState A B} (h : s.workspaces k = some cid)
    (hc : s.calls cid = some c) :
    step bIsAny s (.doJoin k) =
      some (s.updCall cid { c with dups := c.dups + 1 }) := by
  simp [step, h, hc]

theorem step_doJoin_create {bIsAny : Bool} {s : GState A B} {k : A}
    (h : s.workspaces k = none) :
    step bIsAny s (.doJoin k) =
      some { s.updCall s.nextCall (newCall k) with
             workspaces := fun k' =>
               if k' = k then some s.nextCall else s.workspaces k'
             nextCall := s.nextCall + 1 } := by
  simp [step, h]

theorem step_doChanJoin_attach {bIsAny : Bool} {s : GState A B} {k : A}
    {cid : Nat} {c : CallState A B} (h : s.workspaces k = some cid)
    (hc : s.calls cid = some c) :
    step bIsAny s (.doChanJoin k) =
      some ((({ s with
                nextChan := s.nextChan + 1
                chanCap := fun i =>
                  if i = s.nextChan then some 1 else s.chanCap i } :
          GState A B)).updCall cid
        { c with dups := c.dups + 1
                 chans := c.chans ++ [s.nextChan] }) := by
  simp [step, h, hc]

theorem step_doChanJoin_create {bIsAny : Bool} {s : GState A B} {k : A}
    (h : s.workspaces k = none) :
    step bIsAny s (.doChanJoin k) =
      some { (({ s with
                 nextChan := s.nextChan + 1
                 chanCap := fun i =>
                   if i = s.nextChan then some 1 else s.chanCap i } :
           GState A B)).updCall s.nextCall
               { newCall k with chans := [s.nextChan] } with
             workspaces := fun k' =>
               if k' = k then some s.nextCall else s.workspaces k'
             nextCall := s.nextCall + 1 } := by
  simp [step, h]

theorem step_complete {bIsAny : Bool} {s : GState A B} {cid : Nat}
    {o : Outcome B} {stack : List Char} {c : CallState A B}
    (hc : s.calls cid = some c) (hd : c.done = false) :
    step bIsAny s (.complete cid o stack) =
      some { s.updCall cid (completeCall bIsAny stack o c) with
             workspaces := fun k' =>
               if s.workspaces c.key = some cid ∧ k' = c.key then none
               else s.workspaces k'
             sent := s.sent ++ completeSends bIsAny stack o c
             crashed := s.crashed ||
               ((completeCall bIsAny stack o c).effect ==
                 some CompletionEffect.crash) } := by
  simp [step, hc, hd]

theorem step_forget {bIsAny : Bool} {s : GState A B} {k : A} :
    step bIsAny s (.forget k) =
      some { s with workspaces := fun k' =>
               if k' = k then none else s.workspaces k' } := rfl

theorem occAll_keep {s s' : GState A B}
    (hn : s'.nextCall = s.nextCall)
    (hl : ∀ ch i, i < s.nextCall →
      callChanCount s' ch i = callChanCount s ch i) :
    ∀ ch, occAll s' ch = occAll s ch := by
  intro ch
  unfold occAll
  rw [hn]
  exact sumBelow_congr (fun i hi => hl ch i hi)

theorem occAll_bump {s s' : GState A B}
    (hn : s'.nextCall = s.nextCall + 1)
    (hl : ∀ ch i, i < s.nextCall →
      callChanCount s' ch i = callChanCount s ch i) :
    ∀ ch, occAll s' ch = occAll s ch + callChanCount s' ch s.nextCall := by
  intro ch
  unfold occAll
  rw [hn]
  simp only [sumBelow]
  rw [sumBelow_congr (fun i hi => hl ch i hi)]

theorem expected_keep {s s' : GState A B}
    (hn : s'.nextCall = s.nextCall)
    (hl : ∀ ch i, i < s.nextCall →
      expectedAt s' ch i = expectedAt s ch i) :
    ∀ ch, expectedSends s' ch = expectedSends s ch := by
  intro ch
  unfold expectedSends
  rw [hn]
  exact sumBelow_congr (fun i hi => hl ch i hi)

theorem expected_bump {s s' : GState A B}
    (hn : s'.nextCall = s.nextCall + 1)
    (hl : ∀ ch i, i < s.nextCall →
      expectedAt s' ch i = expectedAt s ch i) :
    ∀ ch, expectedSends s' ch =
      expectedSends s ch + expectedAt s' ch s.nextCall := by
  intro ch
  unfold expectedSends
  rw [hn]
  simp only [sumBelow]
  rw [sumBelow_congr (fun i hi => hl ch i hi)]

theorem expected_add_point {s s' : GState A B} {cid : Nat}
    (hcid : cid < s.nextCall)
    (hl : ∀ ch i, i < s.nextCall → i ≠ cid →
      expectedAt s' ch i = expectedAt s ch i)
    (h0 : ∀ ch, expectedAt s ch cid = 0)
    (hn : s'.nextCall = s.nextCall) :
    ∀ ch, expectedSends s' ch =
      expectedSends s ch + expectedAt s' ch cid := by
  intro ch
  unfold expectedSends
  rw [hn]
  exact sumBelow_add_point hcid (fun i hi hne => hl ch i hi hne)
    (by rw [h0 ch]; omega)

theorem WF.callLt {s : GState A B} {cid : Nat} {c : CallState A B}
    (hw : WF s) (hc : s.calls cid = some c) : cid < s.nextCall := by
  by_contra hlt
  have hnone := hw.callsFresh cid (by omega)
  rw [hnone] at hc
  exact Option.noConfusion hc

theorem wf_attach_do {s : GState A B} {k : A} {cid : Nat}
    {c : CallState A B} (hw : WF s) (hreg : s.workspaces k = some cid)
    (hc : s.calls cid = some c) :
    WF (s.updCall cid { c with dups := c.dups + 1 }) := by
  obtain ⟨c0, hc0, hdone0, hkey0⟩ := hw.regValid k cid hreg
  rw [hc] at hc0
  injection hc0 with hc0
  subst hc0
  have hcid := hw.callLt hc
  have hocc : ∀ ch,
      occAll (s.updCall cid { c with dups := c.dups + 1 }) ch =
      occAll s ch := occAll_keep rfl
    (by
      intro ch i hi
      unfold callChanCount
      simp only [updCall_calls]
      by_cases hi' : i = cid
      · subst hi'
        rw [hc]
        simp
      · rw [if_neg hi'])
  have hexp : ∀ ch,
      expectedSends (s.updCall cid { c with dups := c.dups + 1 }) ch =
      expectedSends s ch := expected_keep rfl
    (by
      intro ch i hi
      unfold expectedAt
      simp only [updCall_calls]
      by_cases hi' : i = cid
      · subst hi'
        rw [hc]
        simp
      · rw [if_neg hi'])
  refine ⟨?_, ?_, ?_, ?_, ?_, ?_, ?_, ?_⟩
  · intro i hi
    simp only [updCall_calls, updCall_nextCall] at *
    rw [if_neg (by omega)]
    exact hw.callsFresh i hi
  · intro k' cid' hk'
    simp only [updCall_workspaces] at hk'
    obtain ⟨c1, hc1, hd1, hk1⟩ := hw.regValid k' cid' hk'
    by_cases hcid' : cid' = cid
    · subst hcid'
      rw [hc] at hc1
      injection hc1 with hc1
      subst hc1
      exact ⟨{ c with dups := c.dups + 1 }, by simp, hd1, hk1⟩
    · exact ⟨c1, by simp [hcid', hc1], hd1, hk1⟩
  · intro i ci hci
    simp only [updCall_calls] at hci
    by_cases hi : i = cid
    · rw [if_pos hi] at hci
      injection hci with hci
      subst hci
      exact hw.doneHasEffect cid c hc
    · rw [if_neg hi] at hci
      exact hw.doneHasEffect i ci hci
  · intro ch hch
    rw [hocc ch]
    exact hw.chanFresh ch hch
  · intro ch
    rw [hocc ch]
    exact hw.chanOnce ch
  · intro ch
    simp only [updCall_sent]
    rw [hexp ch]
    exact hw.sentEq ch
  · intro p hp
    simp only [updCall_sent] at hp
    obtain ⟨i, ci, hci, hd, he, hm, hpe⟩ := hw.sentContent p hp
    have hi : i ≠ cid := by
      intro hi
      subst hi
      rw [hc] at hci
      injection hci with hci
      rw [← hci] at hd
      rw [hdone0] at hd
      exact Bool.noConfusion hd
    exact ⟨i, ci, by simp [hi, hci], hd, he, hm, hpe⟩
  · intro ch
    simp only [updCall_chanCap, updCall_nextChan]
    exact hw.capSet ch

theorem wf_attach_doChan {s : GState A B} {k : A} {cid : Nat}
    {c : CallState A B} (hw : WF s) (hreg : s.workspaces k = some cid)
    (hc : s.calls cid = some c) :
    WF ((({ s with
            nextChan := s.nextChan + 1
            chanCap := fun i =>
              if i = s.nextChan then some 1 else s.chanCap i } :
        GState A B)).updCall cid
      { c with dups := c.dups + 1
               chans := c.chans ++ [s.nextChan] }) := by
  obtain ⟨c0, hc0, hdone0, hkey0⟩ := hw.regValid k cid hreg
  rw [hc] at hc0
  injection hc0 with hc0
  subst hc0
  have hcid := hw.callLt hc
  have hocc : ∀ ch,
      occAll ((({ s with
            nextChan := s.nextChan + 1
            chanCap := fun i =>
              if i = s.nextChan then some 1 else s.chanCap i } :
          GState A B)).updCall cid
        { c with dups := c.dups + 1
                 chans := c.chans ++ [s.nextChan] }) ch =
      occAll s ch + ([s.nextChan] : List Nat).count ch := by
    intro ch
    unfold occAll
    refine sumBelow_add_point hcid ?_ ?_
    · intro i hi hne
      unfold callChanCount
      simp only [updCall_calls]
      rw [if_neg hne]
    · unfold callChanCount
      simp only [updCall_calls]
      rw [hc]
      simp [List.count_append]
  have hexp : ∀ ch,
      expectedSends ((({ s with
            nextChan := s.nextChan + 1
            chanCap := fun i =>
              if i = s.nextChan then some 1 else s.chanCap i } :
          GState A B)).updCall cid
        { c with dups := c.dups + 1
                 chans := c.chans ++ [s.nextChan] }) ch =
      expectedSends s ch := by
    refine expected_keep rfl ?_
    intro ch i hi
    unfold expectedAt
    simp only [updCall_calls]
    by_cases hi' : i = cid
    · subst hi'
      rw [hc]
      simp [hdone0]
    · rw [if_neg hi']
  refine ⟨?_, ?_, ?_, ?_, ?_, ?_, ?_, ?_⟩
  · intro i hi
    simp only [updCall_calls, updCall_nextCall] at *
    rw [if_neg (by omega)]
    exact hw.callsFresh i hi
  · intro k' cid' hk'
    simp only [updCall_workspaces] at hk'
    obtain ⟨c1, hc1, hd1, hk1⟩ := hw.regValid k' cid' hk'
    by_cases hcid' : cid' = cid
    · subst hcid'
      rw [hc] at hc1
      injection hc1 with hc1
      subst hc1
      exact ⟨{ c with
               dups := c.dups + 1
               chans := c.chans ++ [s.nextChan] }, by simp, hd1, hk1⟩
    · exact ⟨c1, by simp [hcid', hc1], hd1, hk1⟩
  · intro i ci hci
    simp only [updCall_calls] at hci
    by_cases hi : i = cid
    · rw [if_pos hi] at hci
      injection hci with hci
      subst hci
      exact hw.doneHasEffect cid c hc
    · rw [if_neg hi] at hci
      exact hw.doneHasEffect i ci hci
  · intro ch hch
    simp only [updCall_nextChan] at hch
    rw [hocc ch]
    have h1 := hw.chanFresh ch (by omega)
    have h2 : ([s.nextChan] : List Nat).count ch = 0 := by
      have hne : s.nextChan ≠ ch := by omega
      simp [List.count_cons, hne]
    omega
  · intro ch
    rw [hocc ch]
    by_cases hch : ch = s.nextChan
    · have h1 := hw.chanFresh s.nextChan (Nat.le_refl _)
      rw [hch, h1]
      simp [List.count_cons]
    · have h2 : ([s.nextChan] : List Nat).count ch = 0 := by
        have hne : s.nextChan ≠ ch := fun h => hch h.symm
        simp [List.count_cons, hne]
      have := hw.chanOnce ch
      omega
  · intro ch
    simp only [updCall_sent]
    rw [hexp ch]
    exact hw.sentEq ch
  · intro p hp
    simp only [updCall_sent] at hp
    obtain ⟨i, ci, hci, hd, he, hm, hpe⟩ := hw.sentContent p hp
    have hi : i ≠ cid := by
      intro hi
      subst hi
      rw [hc] at hci
      injection hci with hci
      rw [← hci] at hd
      rw [hdone0] at hd
      exact Bool.noConfusion hd
    exact ⟨i, ci, by simp [hi, hci], hd, he, hm, hpe⟩
  · intro ch
    simp only [updCall_chanCap, updCall_nextChan]
    by_cases hch : ch = s.nextChan
    · subst hch
      simp [doChanBufferCap]
    · have hold := hw.capSet ch
      rw [if_neg hch]
      constructor
      · intro h
        exact hold.mp (by omega)
      · intro h
        have := hold.mpr h
        omega

theorem wf_create_do {s : GState A B} {k : A} (hw : WF s) :
    WF { s.updCall s.nextCall (newCall k) with
         workspaces := fun k' =>
           if k' = k then some s.nextCall else s.workspaces k'
         nextCall := s.nextCall + 1 } := by
  have hocc : ∀ ch,
      occAll { s.updCall s.nextCall (newCall k) with
               workspaces := fun k' =>
                 if k' = k then some s.nextCall else s.workspaces k'
               nextCall := s.nextCall + 1 } ch = occAll s ch := by
    intro ch
    rw [occAll_bump rfl
      (by
        intro ch' i hi
        unfold callChanCount
        simp only [updCall_calls]
        rw [if_neg (by omega)]) ch]
    unfold callChanCount
    simp [newCall]
  have hexp : ∀ ch,
      expectedSends { s.updCall s.nextCall (newCall k) with
               workspaces := fun k' =>
                 if k' = k then some s.nextCall else s.workspaces k'
               nextCall := s.nextCall + 1 } ch = expectedSends s ch := by
    intro ch
    rw [expected_bump rfl
      (by
        intro ch' i hi
        unfold expectedAt
        simp only [updCall_calls]
        rw [if_neg (by omega)]) ch]
    unfold expectedAt
    simp [newCall]
  refine ⟨?_, ?_, ?_, ?_, ?_, ?_, ?_, ?_⟩
  · intro i hi
    dsimp only at hi ⊢
    simp only [updCall_calls]
    rw [if_neg (by omega)]
    exact hw.callsFresh i (by omega)
  · intro k' cid' hk'
    dsimp only at hk' ⊢
    by_cases hk : k' = k
    · rw [if_pos hk] at hk'
      injection hk' with hk'
      subst hk'
      refine ⟨newCall k, ?_, rfl, hk ▸ rfl⟩
      simp only [updCall_calls]
      simp
    · rw [if_neg hk] at hk'
      obtain ⟨c1, hc1, hd1, hk1⟩ := hw.regValid k' cid' hk'
      have hlt : cid' < s.nextCall := hw.callLt hc1
      refine ⟨c1, ?_, hd1, hk1⟩
      simp only [updCall_calls]
      rw [if_neg (by omega)]
      exact hc1
  · intro i ci hci
    dsimp only at hci
    simp only [updCall_calls] at hci
    by_cases hi : i = s.nextCall
    · rw [if_pos hi] at hci
      injection hci with hci
      subst hci
      simp [newCall]
    · rw [if_neg hi] at hci
      exact hw.doneHasEffect i ci hci
  · intro ch hch
    rw [hocc ch]
    exact hw.chanFresh ch hch
  · intro ch
    rw [hocc ch]
    exact hw.chanOnce ch
  · intro ch
    rw [hexp ch]
    exact hw.sentEq ch
  · intro p hp
    dsimp only at hp ⊢
    obtain ⟨i, ci, hci, hd, he, hm, hpe⟩ := hw.sentContent p hp
    have hlt : i < s.nextCall := hw.callLt hci
    refine ⟨i, ci, ?_, hd, he, hm, hpe⟩
    simp only [updCall_calls]
    rw [if_neg (by omega)]
    exact hci
  · intro ch
    exact hw.capSet ch

theorem wf_create_doChan {s : GState A B} {k : A} (hw : WF s) :
    WF { (({ s with
             nextChan := s.nextChan + 1
             chanCap := fun i =>
               if i = s.nextChan then some 1 else s.chanCap i } :
       GState A B)).updCall s.nextCall
           { newCall k with chans := [s.nextChan] } with
         workspaces := fun k' =>
           if k' = k then some s.nextCall else s.workspaces k'
         nextCall := s.nextCall + 1 } := by
  have hocc : ∀ ch,
      occAll { (({ s with
             nextChan := s.nextChan + 1
             chanCap := fun i =>
               if i = s.nextChan then some 1 else s.chanCap i } :
        GState A B)).updCall s.nextCall
           { newCall k with chans := [s.nextChan] } with
         workspaces := fun k' =>
           if k' = k then some s.nextCall else s.workspaces k'
         nextCall := s.nextCall + 1 } ch =
      occAll s ch + ([s.nextChan] : List Nat).count ch := by
    intro ch
    rw [occAll_bump rfl
      (by
        intro ch' i hi
        unfold callChanCount
        simp only [updCall_calls]
        rw [if_neg (by omega)]) ch]
    unfold callChanCount
    simp [newCall]
  have hexp : ∀ ch,
      expectedSends { (({ s with
             nextChan := s.nextChan + 1
             chanCap := fun i =>
               if i = s.nextChan then some 1 else s.chanCap i } :
        GState A B)).updCall s.nextCall
           { newCall k with chans := [s.nextChan] } with
         workspaces := fun k' =>
           if k' = k then some s.nextCall else s.workspaces k'
         nextCall := s.nextCall + 1 } ch = expectedSends s ch := by
    intro ch
    rw [expected_bump rfl
      (by
        intro ch' i hi
        unfold expectedAt
        simp only [updCall_calls]
        rw [if_neg (by omega)]) ch]
    unfold expectedAt
    simp [newCall]
  refine ⟨?_, ?_, ?_, ?_, ?_, ?_, ?_, ?_⟩
  · intro i hi
    dsimp only at hi ⊢
    simp only [updCall_calls]
    rw [if_neg (by omega)]
    exact hw.callsFresh i (by omega)
  · intro k' cid' hk'
    dsimp only at hk' ⊢
    by_cases hk : k' = k
    · rw [if_pos hk] at hk'
      injection hk' with hk'
      subst hk'
      refine ⟨{ newCall k with chans := [s.nextChan] }, ?_, rfl,
        hk ▸ rfl⟩
      simp only [updCall_calls]
      simp
    · rw [if_neg hk] at hk'
      obtain ⟨c1, hc1, hd1, hk1⟩ := hw.regValid k' cid' hk'
      have hlt : cid' < s.nextCall := hw.callLt hc1
      refine ⟨c1, ?_, hd1, hk1⟩
      simp only [updCall_calls]
      rw [if_neg (by omega)]
      exact hc1
  · intro i ci hci
    dsimp only at hci
    simp only [updCall_calls] at hci
    by_cases hi : i = s.nextCall
    · rw [if_pos hi] at hci
      injection hci with hci
      subst hci
      simp [newCall]
    · rw [if_neg hi] at hci
      exact hw.doneHasEffect i ci hci
  · intro ch hch
    have hch' : s.nextChan + 1 ≤ ch := hch
    rw [hocc ch]
    have h1 := hw.chanFresh ch (by omega)
    have h2 : ([s.nextChan] : List Nat).count ch = 0 := by
      have hne : s.nextChan ≠ ch := by omega
      simp [List.count_cons, hne]
    omega
  · intro ch
    rw [hocc ch]
    by_cases hch : ch = s.nextChan
    · have h1 := hw.chanFresh s.nextChan (Nat.le_refl _)
      rw [hch, h1]
      simp [List.count_cons]
    · have h2 : ([s.nextChan] : List Nat).count ch = 0 := by
        have hne : s.nextChan ≠ ch := fun h => hch h.symm
        simp [List.count_cons, hne]
      have := hw.chanOnce ch
      omega
  · intro ch
    rw [hexp ch]
    exact hw.sentEq ch
  · intro p hp
    dsimp only at hp ⊢
    obtain ⟨i, ci, hci, hd, he, hm, hpe⟩ := hw.sentContent p hp
    have hlt : i < s.nextCall := hw.callLt hci
    refine ⟨i, ci, ?_, hd, he, hm, hpe⟩
    simp only [updCall_calls]
    rw [if_neg (by omega)]
    exact hci
  · intro ch
    show ch < s.nextChan + 1 ↔
      (if ch = s.nextChan then some 1 else s.chanCap ch) =
        some doChanBufferCap
    by_cases hch : ch = s.nextChan
    · rw [hch]
      simp [doChanBufferCap]
    · rw [if_neg hch]
      have hold := hw.capSet ch
      constructor
      · intro h
        exact hold.mp (by omega)
      · intro h
        have := hold.mpr h
        omega

theorem sendCount_completeSends {bIsAny : Bool} {stack : List Char}
    {o : Outcome B} {c : CallState A B} {ch : Nat} :
    sendCount (completeSends bIsAny stack o c) ch =
      if completionEffect bIsAny (applyOutcome stack o c) =
          CompletionEffect.normalFanout then
        c.chans.count ch
      else 0 := by
  unfold completeSends
  by_cases heff : completionEffect bIsAny (applyOutcome stack o c) =
      CompletionEffect.normalFanout
  · rw [if_pos heff]
    simp only [completeCall_effect, completeCall_chans, heff, if_pos]
    exact sendCount_map_chans
  · rw [if_neg heff]
    have : ¬ ((completeCall bIsAny stack o c).effect =
        some CompletionEffect.normalFanout) := by
      simp only [completeCall_effect]
      intro h
      injection h with h
      exact heff h
    rw [if_neg this]
    rfl

theorem wf_complete {bIsAny : Bool} {s : GState A B} {cid : Nat}
    {o : Outcome B} {stack : List Char} {c : CallState A B} (hw : WF s)
    (hc : s.calls cid = some c) (hd : c.done = false) :
    WF { s.updCall cid (completeCall bIsAny stack o c) with
         workspaces := fun k' =>
           if s.workspaces c.key = some cid ∧ k' = c.key then none
           else s.workspaces k'
         sent := s.sent ++ completeSends bIsAny stack o c
         crashed := s.crashed ||
           ((completeCall bIsAny stack o c).effect ==
             some CompletionEffect.crash) } := by
  have hcid := hw.callLt hc
  have hocc : ∀ ch,
      occAll { s.updCall cid (completeCall bIsAny stack o c) with
         workspaces := fun k' =>
           if s.workspaces c.key = some cid ∧ k' = c.key then none
           else s.workspaces k'
         sent := s.sent ++ completeSends bIsAny stack o c
         crashed := s.crashed ||
           ((completeCall bIsAny stack o c).effect ==
             some CompletionEffect.crash) } ch = occAll s ch := by
    refine occAll_keep rfl ?_
    intro ch i hi
    show (match (if i = cid then some (completeCall bIsAny stack o c)
        else s.calls i) with
      | some c => c.chans.count ch
      | none => 0) = callChanCount s ch i
    unfold callChanCount
    by_cases hi' : i = cid
    · subst hi'
      rw [hc, if_pos rfl]
      simp
    · rw [if_neg hi']
  have hl : ∀ (ch i : Nat), i < s.nextCall → i ≠ cid →
      expectedAt { s.updCall cid (completeCall bIsAny stack o c) with
         workspaces := fun k' =>
           if s.workspaces c.key = some cid ∧ k' = c.key then none
           else s.workspaces k'
         sent := s.sent ++ completeSends bIsAny stack o c
         crashed := s.crashed ||
           ((completeCall bIsAny stack o c).effect ==
             some CompletionEffect.crash) } ch i = expectedAt s ch i := by
    intro ch i hi hne
    show (match (if i = cid then some (completeCall bIsAny stack o c)
        else s.calls i) with
      | some c =>
        if c.done && (c.effect == some CompletionEffect.normalFanout) then
          c.chans.count ch
        else 0
      | none => 0) = expectedAt s ch i
    rw [if_neg hne]
    rfl
  have h0 : ∀ ch : Nat, expectedAt s ch cid = 0 := by
    intro ch
    unfold expectedAt
    rw [hc]
    simp [hd]
  have hpoint : ∀ ch : Nat,
      expectedAt { s.updCall cid (completeCall bIsAny stack o c) with
         workspaces := fun k' =>
           if s.workspaces c.key = some cid ∧ k' = c.key then none
           else s.workspaces k'
         sent := s.sent ++ completeSends bIsAny stack o c
         crashed := s.crashed ||
           ((completeCall bIsAny stack o c).effect ==
             some CompletionEffect.crash) } ch cid =
      sendCount (completeSends bIsAny stack o c) ch := by
    intro ch
    rw [sendCount_completeSends]
    show (match (if cid = cid then some (completeCall bIsAny stack o c)
        else s.calls cid) with
      | some c =>
        if c.done && (c.effect == some CompletionEffect.normalFanout) then
          c.chans.count ch
        else 0
      | none => 0) = _
    rw [if_pos rfl]
    simp only [completeCall_done, completeCall_effect, completeCall_chans]
    by_cases heff : completionEffect bIsAny (applyOutcome stack o c) =
        CompletionEffect.normalFanout
    · simp [heff]
    · simp [heff]
  have hexp : ∀ ch,
      expectedSends { s.updCall cid (completeCall bIsAny stack o c) with
         workspaces := fun k' =>
           if s.workspaces c.key = some cid ∧ k' = c.key then none
           else s.workspaces k'
         sent := s.sent ++ completeSends bIsAny stack o c
         crashed := s.crashed ||
           ((completeCall bIsAny stack o c).effect ==
             some CompletionEffect.crash) } ch =
      expectedSends s ch +
        sendCount (completeSends bIsAny stack o c) ch := by
    intro ch
    have h1 := expected_add_point hcid hl h0 rfl ch
    rw [hpoint ch] at h1
    exact h1
  refine ⟨?_, ?_, ?_, ?_, ?_, ?_, ?_, ?_⟩
  · intro i hi
    have hi' : s.nextCall ≤ i := hi
    show (if i = cid then some (completeCall bIsAny stack o c)
      else s.calls i) = none
    rw [if_neg (by omega)]
    exact hw.callsFresh i hi'
  · intro k' cid' hk'
    have hk2 : (if s.workspaces c.key = some cid ∧ k' = c.key then none
      else s.workspaces k') = some cid' := hk'
    by_cases hcond : s.workspaces c.key = some cid ∧ k' = c.key
    · rw [if_pos hcond] at hk2
      exact Option.noConfusion hk2
    · rw [if_neg hcond] at hk2
      obtain ⟨c1, hc1, hd1, hk1⟩ := hw.regValid k' cid' hk2
      have hne : cid' ≠ cid := by
        intro h
        subst h
        rw [hc] at hc1
        injection hc1 with hc1
        subst hc1
        exact hcond ⟨by rw [hk1]; exact hk2, hk1.symm⟩
      refine ⟨c1, ?_, hd1, hk1⟩
      show (if cid' = cid then some (completeCall bIsAny stack o c)
        else s.calls cid') = some c1
      rw [if_neg hne]
      exact hc1
  · intro i ci hci
    have hci' : (if i = cid then some (completeCall bIsAny stack o c)
      else s.calls i) = some ci := hci
    by_cases hi : i = cid
    · rw [if_pos hi] at hci'
      injection hci' with hci'
      subst hci'
      simp
    · rw [if_neg hi] at hci'
      exact hw.doneHasEffect i ci hci'
  · intro ch hch
    have hch' : s.nextChan ≤ ch := hch
    rw [hocc ch]
    exact hw.chanFresh ch hch'
  · intro ch
    rw [hocc ch]
    exact hw.chanOnce ch
  · intro ch
    show sendCount (s.sent ++ completeSends bIsAny stack o c) ch = _
    rw [sendCount_append, hw.sentEq ch, hexp ch]
  · intro p hp
    have hp' : p ∈ s.sent ++ completeSends bIsAny stack o c := hp
    rcases List.mem_append.mp hp' with hpl | hpr
    · obtain ⟨i, ci, hci, hdi, he, hm, hpe⟩ := hw.sentContent p hpl
      have hne : i ≠ cid := by
        intro h
        subst h
        rw [hc] at hci
        injection hci with hci
        subst hci
        rw [hd] at hdi
        exact Bool.noConfusion hdi
      refine ⟨i, ci, ?_, hdi, he, hm, hpe⟩
      show (if i = cid then some (completeCall bIsAny stack o c)
        else s.calls i) = some ci
      rw [if_neg hne]
      exact hci
    · unfold completeSends at hpr
      by_cases heff : (completeCall bIsAny stack o c).effect =
          some CompletionEffect.normalFanout
      · rw [if_pos heff] at hpr
        obtain ⟨ch', hch', hpe⟩ := List.mem_map.mp hpr
        refine ⟨cid, completeCall bIsAny stack o c, ?_, by simp, heff,
          ?_, ?_⟩
        · show (if cid = cid then some (completeCall bIsAny stack o c)
            else s.calls cid) = some (completeCall bIsAny stack o c)
          rw [if_pos rfl]
        · rw [← hpe]
          exact hch'
        · rw [← hpe]
      · rw [if_neg heff] at hpr
        exact absurd hpr (List.not_mem_nil p)
  · intro ch
    exact hw.capSet ch

theorem wf_forget {s : GState A B} {k : A} (hw : WF s) :
    WF { s with workspaces := fun k' =>
           if k' = k then none else s.workspaces k' } := by
  refine ⟨hw.callsFresh, ?_, hw.doneHasEffect, hw.chanFresh, hw.chanOnce,
    hw.sentEq, hw.sentContent, hw.capSet⟩
  intro k' cid' hk'
  dsimp only at hk'
  by_cases hkk : k' = k
  · rw [if_pos hkk] at hk'
    exact Option.noConfusion hk'
  · rw [if_neg hkk] at hk'
    exact hw.regValid k' cid' hk'

theorem step_doJoin_nocall {bIsAny : Bool} {s : GState A B} {k : A}
    {cid : Nat} (h : s.workspaces k = some cid)
    (hc : s.calls cid = none) :
    step bIsAny s (.doJoin k) = none := by
  simp [step, h, hc]

theorem step_doChanJoin_nocall {bIsAny : Bool} {s : GState A B} {k : A}
    {cid : Nat} (h : s.workspaces k = some cid)
    (hc : s.calls cid = none) :
    step bIsAny s (.doChanJoin k) = none := by
  simp [step, h, hc]

theorem step_complete_done {bIsAny : Bool} {s : GState A B} {cid : Nat}
    {o : Outcome B} {stack : List Char} {c : CallState A B}
    (hc : s.calls cid = some c) (hdone : c.done = true) :
    step bIsAny s (.complete cid o stack) = none := by
  simp [step, hc, hdone]

theorem step_complete_nocall {bIsAny : Bool} {s : GState A B} {cid : Nat}
    {o : Outcome B} {stack : List Char} (hc : s.calls cid = none) :
    step bIsAny s (.complete cid o stack) = none := by
  simp [step, hc]

theorem wf_empty : WF (GState.empty A B) := by
  refine ⟨?_, ?_, ?_, ?_, ?_, ?_, ?_, ?_⟩
  · intro cid _
    rfl
  · intro k cid h
    exact Option.noConfusion h
  · intro cid c h
    exact Option.noConfusion h
  · intro ch _
    rfl
  · intro ch
    exact Nat.zero_le 1
  · intro ch
    rfl
  · intro p hp
    exact absurd hp (List.not_mem_nil p)
  · intro ch
    constructor
    · intro h
      exact absurd h (Nat.not_lt_zero ch)
    · intro h
      exact Option.noConfusion h

theorem wf_step {bIsAny : Bool} {s s' : GState A B} {a : Action A B}
    (hw : WF s) (h : step bIsAny s a = some s') : WF s' := by
  cases a with
  | doJoin k =>
    cases hreg : s.workspaces k with
    | some cid =>
      obtain ⟨c, hc, hdone, hkey⟩ := hw.regValid k cid hreg
      rw [step_doJoin_attach hreg hc] at h
      injection h with h
      subst h
      exact wf_attach_do hw hreg hc
    | none =>
      rw [step_doJoin_create hreg] at h
      injection h with h
      subst h
      exact wf_create_do hw
  | doChanJoin k =>
    cases hreg : s.workspaces k with
    | some cid =>
      obtain ⟨c, hc, hdone, hkey⟩ := hw.regValid k cid hreg
      rw [step_doChanJoin_attach hreg hc] at h
      injection h with h
      subst h
      exact wf_attach_doChan hw hreg hc
    | none =>
      rw [step_doChanJoin_create hreg] at h
      injection h with h
      subst h
      exact wf_create_doChan hw
  | complete cid o stack =>
    cases hc : s.calls cid with
    | some c =>
      cases hdone : c.done with
      | false =>
        rw [step_complete hc hdone] at h
        injection h with h
        subst h
        exact wf_complete hw hc hdone
      | true =>
        rw [step_complete_done hc hdone] at h
        exact Option.noConfusion h
    | none =>
      rw [step_complete_nocall hc] at h
      exact Option.noConfusion h
  | forget k =>
    rw [step_forget] at h
    injection h with h
    subst h
    exact wf_forget hw

theorem wf_run {bIsAny : Bool} {s s' : GState A B}
    {tr : List (Action A B)} (hw : WF s)
    (h : run bIsAny s tr = some s') : WF s' := by
  induction tr generalizing s with
  | nil =>
    simp only [run] at h
    injection h with h
    subst h
    exact hw
  | cons a tr ih =>
    simp only [run] at h
    cases hs : step bIsAny s a with
    | none =>
      rw [hs] at h
      exact Option.noConfusion h
    | some s1 =>
      rw [hs] at h
      exact ih (wf_step hw hs) h

theorem done_stable_step {bIsAny : Bool} {s s' : GState A B}
    {a : Action A B} {cid : Nat} {c : CallState A B} (hw : WF s)
    (hc : s.calls cid = some c) (hdone : c.done = true)
    (h : step bIsAny s a = some s') : s'.calls cid = some c := by
  have hlt := hw.callLt hc
  cases a with
  | doJoin k =>
    cases hreg : s.workspaces k with
    | some cid' =>
      obtain ⟨c', hc', hdone', hkey'⟩ := hw.regValid k cid' hreg
      rw [step_doJoin_attach hreg hc'] at h
      injection h with h
      subst h
      have hne : cid ≠ cid' := by
        intro he
        subst he
        rw [hc] at hc'
        injection hc' with hc'
        subst hc'
        rw [hdone] at hdone'
        exact Bool.noConfusion hdone'
      simp only [updCall_calls]
      rw [if_neg hne]
      exact hc
    | none =>
      rw [step_doJoin_create hreg] at h
      injection h with h
      subst h
      show (if cid = s.nextCall then some (newCall k)
        else s.calls cid) = some c
      rw [if_neg (by omega)]
      exact hc
  | doChanJoin k =>
    cases hreg : s.workspaces k with
    | some cid' =>
      obtain ⟨c', hc', hdone', hkey'⟩ := hw.regValid k cid' hreg
      rw [step_doChanJoin_attach hreg hc'] at h
      injection h with h
      subst h
      have hne : cid ≠ cid' := by
        intro he
        subst he
        rw [hc] at hc'
        injection hc' with hc'
        subst hc'
        rw [hdone] at hdone'
        exact Bool.noConfusion hdone'
      simp only [updCall_calls]
      rw [if_neg hne]
      exact hc
    | none =>
      rw [step_doChanJoin_create hreg] at h
      injection h with h
      subst h
      show (if cid = s.nextCall then
          some { newCall k with chans := [s.nextChan] }
        else s.calls cid) = some c
      rw [if_neg (by omega)]
      exact hc
  | complete cid' o stack =>
    cases hc' : s.calls cid' with
    | some c' =>
      cases hdone' : c'.done with
      | false =>
        rw [step_complete hc' hdone'] at h
        injection h with h
        subst h
        have hne : cid ≠ cid' := by
          intro he
          subst he
          rw [hc] at hc'
          injection hc' with hc'
          subst hc'
          rw [hdone] at hdone'
          exact Bool.noConfusion hdone'
        show (if cid = cid' then
            some (completeCall bIsAny stack o c')
          else s.calls cid) = some c
        rw [if_neg hne]
        exact hc
      | true =>
        rw [step_complete_done hc' hdone'] at h
        exact Option.noConfusion h
    | none =>
      rw [step_complete_nocall hc'] at h
      exact Option.noConfusion h
  | forget k =>
    rw [step_forget] at h
    injection h with h
    subst h
    exact hc

theorem done_stable_run {bIsAny : Bool} {s s' : GState A B}
    {tr : List (Action A B)} {cid : Nat} {c : CallState A B} (hw : WF s)
    (hc : s.calls cid = some c) (hdone : c.done = true)
    (h : run bIsAny s tr = some s') : s'.calls cid = some c := by
  induction tr generalizing s with
  | nil =>
    simp only [run] at h
    injection h with h
    subst h
    exact hc
  | cons a tr ih =>
    simp only [run] at h
    cases hs : step bIsAny s a with
    | none =>
      rw [hs] at h
      exact Option.noConfusion h
    | some s1 =>
      rw [hs] at h
      exact ih (wf_step hw hs) (done_stable_step hw hc hdone hs) h

theorem window_step {bIsAny : Bool} {s s' : GState A B} {a : Action A B}
    {k : A} {cid : Nat} {c : CallState A B} (hw : WF s)
    (hreg : s.workspaces k = some cid) (hc : s.calls cid = some c)
    (hnf : a ≠ Action.forget k)
    (hnc : ∀ o stack, a ≠ Action.complete cid o stack)
    (h : step bIsAny s a = some s') :
    s'.workspaces k = some cid ∧ createsNow s a k = false ∧
    ∃ c', s'.calls cid = some c' ∧ c'.done = false ∧ c'.key = c.key ∧
      c'.val = c.val ∧ c'.err = c.err ∧
      c'.dups = c.dups + (if isJoinFor k a then 1 else 0) := by
  obtain ⟨c0, hc0, hdone0, hkey0⟩ := hw.regValid k cid hreg
  rw [hc] at hc0
  injection hc0 with hc0
  subst hc0
  have hlt := hw.callLt hc
  cases a with
  | doJoin k' =>
    by_cases hk : k' = k
    · subst hk
      rw [step_doJoin_attach hreg hc] at h
      injection h with h
      subst h
      refine ⟨hreg, ?_, { c with dups := c.dups + 1 }, ?_, hdone0, rfl,
        rfl, rfl, ?_⟩
      · simp [createsNow, hreg]
      · simp only [updCall_calls]
        simp
      · simp [isJoinFor]
    · cases hreg' : s.workspaces k' with
      | some cid' =>
        obtain ⟨c1, hc1, hd1, hk1⟩ := hw.regValid k' cid' hreg'
        rw [step_doJoin_attach hreg' hc1] at h
        injection h with h
        subst h
        have hne : cid ≠ cid' := by
          intro he
          subst he
          rw [hc] at hc1
          injection hc1 with hc1
          subst hc1
          exact hk (hk1.symm.trans hkey0)
        refine ⟨hreg, ?_, c, ?_, hdone0, rfl, rfl, ?_⟩
        · simp [createsNow, isJoinFor, hk]
        · simp only [updCall_calls]
          rw [if_neg hne]
          exact hc
        · simp [isJoinFor, hk]
      | none =>
        rw [step_doJoin_create hreg'] at h
        injection h with h
        subst h
        have hkk : k ≠ k' := by
          intro he
          rw [← he, hreg] at hreg'
          exact Option.noConfusion hreg'
        refine ⟨?_, ?_, c, ?_, hdone0, rfl, rfl, ?_⟩
        · show (if k = k' then some s.nextCall else s.workspaces k) =
            some cid
          rw [if_neg hkk]
          exact hreg
        · simp [createsNow, isJoinFor, hk]
        · show (if cid = s.nextCall then some (newCall k')
            else s.calls cid) = some c
          rw [if_neg (by omega)]
          exact hc
        · simp [isJoinFor, hk]
  | doChanJoin k' =>
    by_cases hk : k' = k
    · subst hk
      rw [step_doChanJoin_attach hreg hc] at h
      injection h with h
      subst h
      refine ⟨hreg, ?_, { c with
        dups := c.dups + 1
        chans := c.chans ++ [s.nextChan] }, ?_, hdone0,
        rfl, rfl, rfl, ?_⟩
      · simp [createsNow, hreg]
      · simp only [updCall_calls]
        simp
      · simp [isJoinFor]
    · cases hreg' : s.workspaces k' with
      | some cid' =>
        obtain ⟨c1, hc1, hd1, hk1⟩ := hw.regValid k' cid' hreg'
        rw [step_doChanJoin_attach hreg' hc1] at h
        injection h with h
        subst h
        have hne : cid ≠ cid' := by
          intro he
          subst he
          rw [hc] at hc1
          injection hc1 with hc1
          subst hc1
          exact hk (hk1.symm.trans hkey0)
        refine ⟨hreg, ?_, c, ?_, hdone0, rfl, rfl, ?_⟩
        · simp [createsNow, isJoinFor, hk]
        · simp only [updCall_calls]
          rw [if_neg hne]
          exact hc
        · simp [isJoinFor, hk]
      | none =>
        rw [step_doChanJoin_create hreg'] at h
        injection h with h
        subst h
        have hkk : k ≠ k' := by
          intro he
          rw [← he, hreg] at hreg'
          exact Option.noConfusion hreg'
        refine ⟨?_, ?_, c, ?_, hdone0, rfl, rfl, ?_⟩
        · show (if k = k' then some s.nextCall else s.workspaces k) =
            some cid
          rw [if_neg hkk]
          exact hreg
        · simp [createsNow, isJoinFor, hk]
        · show (if cid = s.nextCall then
              some { newCall k' with chans := [s.nextChan] }
            else s.calls cid) = some c
          rw [if_neg (by omega)]
          exact hc
        · simp [isJoinFor, hk]
  | complete cid' o stack =>
    have hne : cid' ≠ cid := by
      intro he
      subst he
      exact hnc o stack rfl
    cases hc' : s.calls cid' with
    | some c2 =>
      cases hdone' : c2.done with
      | false =>
        rw [step_complete hc' hdone'] at h
        injection h with h
        subst h
        refine ⟨?_, rfl, c, ?_, hdone0, rfl, rfl, by simp [isJoinFor]⟩
        · show (if s.workspaces c2.key = some cid' ∧ k = c2.key then none
            else s.workspaces k) = some cid
          have hcond : ¬ (s.workspaces c2.key = some cid' ∧
              k = c2.key) := by
            rintro ⟨h1, h2⟩
            rw [← h2, hreg] at h1
            injection h1 with h1
            exact hne h1.symm
          rw [if_neg hcond]
          exact hreg
        · show (if cid = cid' then some (completeCall bIsAny stack o c2)
            else s.calls cid) = some c
          rw [if_neg (fun he => hne he.symm)]
          exact hc
      | true =>
        rw [step_complete_done hc' hdone'] at h
        exact Option.noConfusion h
    | none =>
      rw [step_complete_nocall hc'] at h
      exact Option.noConfusion h
  | forget k' =>
    rw [step_forget] at h
    injection h with h
    subst h
    have hkk : k ≠ k' := by
      intro he
      exact hnf (by rw [he])
    refine ⟨?_, rfl, c, hc, hdone0, rfl, rfl, by simp [isJoinFor]⟩
    show (if k = k' then none else s.workspaces k) = some cid
    rw [if_neg hkk]
    exact hreg

theorem window_run {bIsAny : Bool} {s s' : GState A B}
    {tr : List (Action A B)} {k : A} {cid : Nat} {c : CallState A B}
    (hw : WF s) (hreg : s.workspaces k = some cid)
    (hc : s.calls cid = some c) (hnf : Action.forget k ∉ tr)
    (hnc : ∀ o stack, Action.complete cid o stack ∉ tr)
    (h : run bIsAny s tr = some s') :
    s'.workspaces k = some cid ∧ creations bIsAny k s tr = 0 ∧
    ∃ c', s'.calls cid = some c' ∧ c'.done = false ∧ c'.key = c.key ∧
      c'.val = c.val ∧ c'.err = c.err ∧
      c'.dups = c.dups + joinCount k tr := by
  induction tr generalizing s c with
  | nil =>
    simp only [run] at h
    injection h with h
    subst h
    obtain ⟨c0, hc0, hd0, _⟩ := hw.regValid k cid hreg
    rw [hc] at hc0
    injection hc0 with hc0
    subst hc0
    exact ⟨hreg, rfl, c, hc, hd0, rfl, rfl, rfl, by simp [joinCount]⟩
  | cons a tr ih =>
    simp only [run] at h
    cases hs : step bIsAny s a with
    | none =>
      rw [hs] at h
      exact Option.noConfusion h
    | some s1 =>
      rw [hs] at h
      have hnf1 : a ≠ Action.forget k := by
        intro he
        exact hnf (by rw [he]; exact List.mem_cons_self _ _)
      have hnc1 : ∀ o stack, a ≠ Action.complete cid o stack := by
        intro o stack he
        exact hnc o stack (by rw [he]; exact List.mem_cons_self _ _)
      obtain ⟨hreg1, hcr1, c1, hc1, hd1, hk1, hv1, he1, hdup1⟩ :=
        window_step hw hreg hc hnf1 hnc1 hs
      have hw1 := wf_step hw hs
      obtain ⟨hreg2, hcr2, c2, hc2, hd2, hk2, hv2, he2, hdup2⟩ :=
        ih hw1 hreg1 hc1
          (fun hm => hnf (List.mem_cons_of_mem a hm))
          (fun o stack hm => hnc o stack (List.mem_cons_of_mem a hm)) h
      refine ⟨hreg2, ?_, c2, hc2, hd2, hk2.trans hk1, hv2.trans hv1,
        he2.trans he1, ?_⟩
      · show (if createsNow s a k then 1 else 0) +
          (match step bIsAny s a with
           | some s' => creations bIsAny k s' tr
           | none => 0) = 0
        rw [hcr1, hs]
        simp [hcr2]
      · rw [hdup2, hdup1]
        show c.dups + _ + joinCount k tr =
          c.dups + (List.filter (isJoinFor k) (a :: tr)).length
        rw [List.filter_cons]
        by_cases hj : isJoinFor k a
        · rw [hj]
          simp [joinCount]
          omega
        · have hj' : isJoinFor k a = false := by
            rw [Bool.not_eq_true] at hj
            exact hj
          rw [hj']
          simp [joinCount, hj']

theorem sumBelow_mono {n : Nat} {f g : Nat → Nat}
    (h : ∀ i, i < n → f i ≤ g i) : sumBelow n f ≤ sumBelow n g := by
  induction n with
  | zero => exact Nat.le_refl 0
  | succ m ih =>
    simp only [sumBelow]
    exact Nat.add_le_add (ih (fun i hi => h i (Nat.lt_succ_of_lt hi)))
      (h m (Nat.lt_succ_self m))

theorem mem_count_pos {l : List Nat} {ch : Nat} (h : ch ∈ l) :
    1 ≤ l.count ch := by
  induction l with
  | nil => exact absurd h (List.not_mem_nil ch)
  | cons a l ih =>
    rw [List.count_cons]
    rcases List.mem_cons.mp h with h | h
    · subst h
      simp
    · have := ih h
      omega

/-- Every channel receives at most one value over the whole history. -/
theorem sendCount_le_one {s : GState A B} (hw : WF s) (ch : Nat) :
    sendCount s.sent ch ≤ 1 := by
  rw [hw.sentEq ch]
  have hle : expectedSends s ch ≤ occAll s ch := by
    refine sumBelow_mono ?_
    intro i hi
    unfold expectedAt callChanCount
    cases s.calls i with
    | none => exact Nat.le_refl 0
    | some c =>
      show (if (c.done &&
          (c.effect == some CompletionEffect.normalFanout)) = true then
        c.chans.count ch else 0) ≤ c.chans.count ch
      by_cases hcond :
          (c.done && (c.effect == some CompletionEffect.normalFanout)) =
            true
      · rw [if_pos hcond]
      · rw [if_neg hcond]
        exact Nat.zero_le _
  exact Nat.le_trans hle (hw.chanOnce ch)

/-- A channel registered with a call that completed through the
normal-return branch has received exactly one value. -/
theorem sendCount_done_fanout {s : GState A B} {cid : Nat}
    {c : CallState A B} {ch : Nat} (hw : WF s)
    (hc : s.calls cid = some c) (hd : c.done = true)
    (hf : c.effect = some CompletionEffect.normalFanout)
    (hm : ch ∈ c.chans) : sendCount s.sent ch = 1 := by
  refine Nat.le_antisymm (sendCount_le_one hw ch) ?_
  rw [hw.sentEq ch]
  have hlt := hw.callLt hc
  have hat : 1 ≤ expectedAt s ch cid := by
    unfold expectedAt
    rw [hc]
    show 1 ≤ (if (c.done &&
        (c.effect == some CompletionEffect.normalFanout)) = true then
      c.chans.count ch else 0)
    rw [if_pos (by simp [hd, hf])]
    exact mem_count_pos hm
  exact Nat.le_trans hat (le_sumBelow hlt)

/-- A value observed on a channel registered with call `cid` is the
envelope of that call: channels are registered with at most one call,
so no other completion can have produced it. -/
theorem sent_unique {s : GState A B} {cid : Nat} {c : CallState A B}
    {p : Nat × ResultContainer B} (hw : WF s)
    (hc : s.calls cid = some c) (hp : p ∈ s.sent) (hm : p.1 ∈ c.chans) :
    p.2 = mkEnvelope c := by
  obtain ⟨i, ci, hci, hdi, hei, hmi, hpe⟩ := hw.sentContent p hp
  by_cases hi : i = cid
  · subst hi
    rw [hc] at hci
    injection hci with hci
    subst hci
    exact hpe
  · exfalso
    have h1 : 1 ≤ callChanCount s p.1 i := by
      unfold callChanCount
      rw [hci]
      exact mem_count_pos hmi
    have h2 : 1 ≤ callChanCount s p.1 cid := by
      unfold callChanCount
      rw [hc]
      exact mem_count_pos hm
    have hp2 : callChanCount s p.1 i + callChanCount s p.1 cid ≤
        occAll s p.1 :=
      pair_le_sumBelow (hw.callLt hci) (hw.callLt hc) hi
    have h3 := hw.chanOnce p.1
    omega

theorem run_append {bIsAny : Bool} {s : GState A B}
    {tr1 tr2 : List (Action A B)} :
    run bIsAny s (tr1 ++ tr2) =
      match run bIsAny s tr1 with
      | some s1 => run bIsAny s1 tr2
      | none => none := by
  induction tr1 generalizing s with
  | nil => rfl
  | cons a t ih =>
    simp only [List.cons_append, run]
    cases step bIsAny s a with
    | none => rfl
    | some s1 => exact ih

theorem dupWake_returned {bIsAny : Bool} {c : CallState A B}
    {v : Option B} {e : GoError} {sh : Bool}
    (h : dupWake bIsAny c = DupResult.returned v e sh) :
    v = c.val ∧ e = c.err ∧ sh = true := by
  unfold dupWake at h
  by_cases h1 : isPanicErrorB bIsAny c.err = true
  · rw [if_pos h1] at h
    exact DupResult.noConfusion h
  · rw [if_neg h1] at h
    by_cases h2 : isGoexitSentinel c.err = true
    · rw [if_pos h2] at h
      exact DupResult.noConfusion h
    · rw [if_neg h2] at h
      injection h with hv he hs
      exact ⟨hv.symm, he.symm, hs.symm⟩

theorem initResult_returned {bIsAny : Bool} {c : CallState A B}
    {v : Option B} {e : GoError} {sh : Bool}
    (h : initResult bIsAny c = InitResult.returned v e sh) :
    v = c.val ∧ e = c.err ∧ sh = decide (c.dups > 0) := by
  unfold initResult at h
  cases heff : completionEffect bIsAny c with
  | normalFanout =>
    rw [heff] at h
    injection h with hv he hs
    exact ⟨hv.symm, he.symm, hs.symm⟩
  | rethrow =>
    rw [heff] at h
    exact InitResult.noConfusion h
  | crash =>
    rw [heff] at h
    exact InitResult.noConfusion h
  | goexitQuiet =>
    rw [heff] at h
    exact InitResult.noConfusion h

theorem indexOf_newline_append {l rest : List Char} (hl : '\n' ∉ l) :
    (l ++ '\n' :: rest).indexOf '\n' = l.length := by
  induction l with
  | nil =>
    simp only [List.nil_append, List.length_nil]
    exact List.indexOf_cons_self '\n' rest
  | cons a t ih =>
    have ha : a ≠ '\n' := fun h => hl (h ▸ List.mem_cons_self a t)
    have ht : '\n' ∉ t := fun h => hl (List.mem_cons_of_mem a h)
    simp only [List.cons_append, List.length_cons]
    rw [List.indexOf_cons_ne _ ha, ih ht]

theorem trimFirstLine_append {l rest : List Char} (hl : '\n' ∉ l) :
    trimFirstLine (l ++ '\n' :: rest) = rest := by
  unfold trimFirstLine
  rw [if_pos (List.mem_append_right l (List.mem_cons_self _ _))]
  rw [indexOf_newline_append hl]
  rw [show l ++ '\n' :: rest = (l ++ ['\n']) ++ rest by simp]
  rw [show l.length + 1 = (l ++ ['\n']).length by simp]
  exact List.drop_left (l ++ ['\n']) rest

/-- Master lemma for an in-flight window followed by the completion of
the call: while call `cid` for key `k` is registered and neither
`Forget k` nor its completion intervenes, no new execution for `k`
starts, every join for `k` attaches to `cid`, and after the completion
the final state holds the completed record, immutable from then on. -/
theorem windowComplete {bIsAny : Bool} {s sF : GState A B} {k : A}
    {cid : Nat} {c : CallState A B} {tr1 tr2 : List (Action A B)}
    {o : Outcome B} {stack : List Char} (hw : WF s)
    (hreg : s.workspaces k = some cid) (hc : s.calls cid = some c)
    (hnf : Action.forget k ∉ tr1)
    (hnc : ∀ o' stack', Action.complete cid o' stack' ∉ tr1)
    (h : run bIsAny s (tr1 ++ Action.complete cid o stack :: tr2) =
      some sF) :
    creations bIsAny k s tr1 = 0 ∧ WF sF ∧
    ∃ c1, c1.dups = c.dups + joinCount k tr1 ∧ c1.key = c.key ∧
      c1.val = c.val ∧ c1.err = c.err ∧
      sF.calls cid = some (completeCall bIsAny stack o c1) := by
  rw [run_append] at h
  cases h1 : run bIsAny s tr1 with
  | none =>
    rw [h1] at h
    exact Option.noConfusion h
  | some s1 =>
    rw [h1] at h
    obtain ⟨hreg1, hcr, c1, hc1, hd1, hk1, hv1, he1, hdup1⟩ :=
      window_run hw hreg hc hnf hnc h1
    have hw1 := wf_run hw h1
    simp only [run] at h
    cases h2 : step bIsAny s1 (Action.complete cid o stack) with
    | none =>
      rw [h2] at h
      exact Option.noConfusion h
    | some s2 =>
      rw [h2] at h
      have hw2 := wf_step hw1 h2
      rw [step_complete hc1 hd1] at h2
      injection h2 with h2
      have hcF2 :
          s2.calls cid = some (completeCall bIsAny stack o c1) := by
        rw [← h2]
        show (if cid = cid then some (completeCall bIsAny stack o c1)
          else s1.calls cid) = some (completeCall bIsAny stack o c1)
        rw [if_pos rfl]
      have hsF := done_stable_run hw2 hcF2 completeCall_done h
      exact ⟨hcr, wf_run hw2 h, c1, hdup1, hk1, hv1, he1, hsF⟩

/-- Shared-flag bookkeeping for a call created with zero duplicates and
completed after window `tr1`: the final duplicate count equals the
number of other joiners, and each observation form carries the flag the
code computes for it. -/
theorem sharedFlag_master {bIsAny : Bool} {s sF : GState A B} {k : A}
    {cid : Nat} {c : CallState A B} {tr1 tr2 : List (Action A B)}
    {o : Outcome B} {stack : List Char} (hw : WF s)
    (hreg : s.workspaces k = some cid) (hc : s.calls cid = some c)
    (hd0 : c.dups = 0) (hnf : Action.forget k ∉ tr1)
    (hnc : ∀ o' stack', Action.complete cid o' stack' ∉ tr1)
    (h : run bIsAny s (tr1 ++ Action.complete cid o stack :: tr2) =
      some sF) :
    ∃ cF, sF.calls cid = some cF ∧ cF.done = true ∧
      cF.dups = joinCount k tr1 ∧
      (∀ v e sh, initResult bIsAny cF = InitResult.returned v e sh →
        sh = decide (cF.dups > 0)) ∧
      (∀ v e sh, dupWake bIsAny cF = DupResult.returned v e sh →
        sh = true) ∧
      (∀ p, p ∈ sF.sent → p.1 ∈ cF.chans →
        p.2.Shared = decide (cF.dups > 0)) ∧
      (decide (cF.dups > 0) = true ↔ 1 ≤ joinCount k tr1) := by
  obtain ⟨hcr, hwF, c1, hdup1, hk1, hv1, he1, hcF⟩ :=
    windowComplete hw hreg hc hnf hnc h
  have hdups : (completeCall bIsAny stack o c1).dups = joinCount k tr1 := by
    rw [completeCall_dups, hdup1, hd0]
    omega
  refine ⟨completeCall bIsAny stack o c1, hcF, completeCall_done, hdups,
    fun v e sh hret => (initResult_returned hret).2.2,
    fun v e sh hret => (dupWake_returned hret).2.2,
    fun p hp hm => by rw [sent_unique hwF hcF hp hm]; rfl, ?_⟩
  rw [hdups]
  constructor
  · intro hdec
    have := of_decide_eq_true hdec
    omega
  · intro hj
    exact decide_eq_true_eq.mpr (by omega)

end Lemmas

section Claims

/-- C2: the claim says that for every instantiation of the group's key
and value types, a duplicate `Do` caller that wakes to find a stored
panic-kind failure re-panics with the stored `panicError`.  On the code
this fails: `newPanicError(r)` is instantiated at `interface{}` (the
type of `recover()`'s result), so the stored error is
`*panicError[interface{}]`, while `Do` line 33 asserts
`*panicError[B]`.  For a group whose value type is not `interface{}`
(`bIsAny = false`) the assertion misses and the duplicate returns the
`panicError` as an ordinary error with `shared = true` instead of
panicking; only at `B = interface{}` (`bIsAny = true`) does the
re-panic the spec describes occur.  Trace: initiator joins key 0, a
duplicate joins, then the supplier panics with payload rendered "b"
while `debug.Stack()` returns the two-line text "g\ns". -/
theorem C2_dup_panic_not_repanic_bug :
    ((run false (GState.empty Nat Nat)
        [Action.doJoin 0, Action.doJoin 0,
         Action.complete 0 (Outcome.panicked ['b']) ['g', '\n', 's']]).bind
      (fun s => s.calls 0)).map (dupWake false) =
      some (DupResult.returned none
        (GoError.panicErr GoTypeTag.anyTy ['b'] ['s']) true) ∧
    ((run true (GState.empty Nat Nat)
        [Action.doJoin 0, Action.doJoin 0,
         Action.complete 0 (Outcome.panicked ['b']) ['g', '\n', 's']]).bind
      (fun s => s.calls 0)).map (dupWake true) =
      some (DupResult.panicked
        (GoError.panicErr GoTypeTag.anyTy ['b'] ['s'])) := by
  decide

/-- C3: the claim says a panicking supplier leads `doCall` either to
re-panic on the executing goroutine (no channels) or to crash the
process from a separate goroutine with no envelope delivered (channels
registered).  On the code the `doCall` line 102 assertion
`c.err.(*panicError[B])` fails whenever the group's value type is not
`interface{}` (the stored error is `*panicError[interface{}]`), so the
completion takes the normal fan-out branch: an envelope carrying the
`panicError` as an ordinary error is delivered and the process does not
crash (`bIsAny = false` half).  At `B = interface{}` the claimed
behaviour holds: process crash, no envelope (`bIsAny = true` half).
Trace: one `DoChan` caller for key 0 registers channel 0, then the
supplier panics. -/
theorem C3_panic_fanout_bug :
    (run false (GState.empty Nat Nat)
        [Action.doChanJoin 0,
         Action.complete 0 (Outcome.panicked ['b']) ['g', '\n', 's']]).map
      (fun s => (s.sent, s.crashed,
        (s.calls 0).map (fun c => c.effect))) =
      some ([(0, ⟨none, GoError.panicErr GoTypeTag.anyTy ['b'] ['s'],
        false⟩)], false, some (some CompletionEffect.normalFanout)) ∧
    (run true (GState.empty Nat Nat)
        [Action.doChanJoin 0,
         Action.complete 0 (Outcome.panicked ['b']) ['g', '\n', 's']]).map
      (fun s => (s.sent, s.crashed,
        (s.calls 0).map (fun c => c.effect))) =
      some ([], true, some (some CompletionEffect.crash)) :=
  ⟨rfl, rfl⟩

/-- C8: when the supplier panics with value rendered `pv`, the stored
failure is the distinguished `panicError` wrapping `pv` together with
the `debug.Stack()` text minus its first line (the
"goroutine N [status]:" line, i.e. everything through the first
newline), and its `Error()` string renders as the value's `%v` form
followed by a blank line and the captured stack text. -/
theorem C8_panic_error_format {A B : Type} {c : CallState A B}
    {l rest pv : List Char} (hl : '\n' ∉ l) :
    newPanicError pv (l ++ '\n' :: rest) =
      GoError.panicErr GoTypeTag.anyTy pv rest ∧
    applyOutcome (l ++ '\n' :: rest) (Outcome.panicked pv) c =
      { c with err := GoError.panicErr GoTypeTag.anyTy pv rest } ∧
    panicErrorString pv rest = pv ++ '\n' :: '\n' :: rest := by
  have h1 : newPanicError pv (l ++ '\n' :: rest) =
      GoError.panicErr GoTypeTag.anyTy pv rest := by
    unfold newPanicError
    rw [trimFirstLine_append hl]
  refine ⟨h1, ?_, rfl⟩
  simp only [applyOutcome]
  rw [h1]

/-- Witness for C8 at the concrete stack "g\ns", payload "b". -/
theorem C8_panic_error_format_witness :
    ('\n' ∉ (['g'] : List Char)) ∧
    (newPanicError ['b'] (['g'] ++ '\n' :: ['s']) =
      GoError.panicErr GoTypeTag.anyTy ['b'] ['s'] ∧
    applyOutcome (['g'] ++ '\n' :: ['s']) (Outcome.panicked ['b'])
        (newCall 0 : CallState Nat Nat) =
      { (newCall 0 : CallState Nat Nat) with
        err := GoError.panicErr GoTypeTag.anyTy ['b'] ['s'] } ∧
    panicErrorString ['b'] ['s'] = ['b'] ++ '\n' :: '\n' :: ['s']) :=
  ⟨by decide, C8_panic_error_format (by decide)⟩

/-- C4: when the supplier of an in-flight call terminates by
`runtime.Goexit` (neither a normal return nor an intercepted panic),
the completion stores the `errGoexit` sentinel, fires the completion
signal (`done`), pushes no value to any channel, re-raises no panic
(the taken branch is the quiet one, and the crash flag is untouched),
and a woken synchronous duplicate — as well as the initiating caller —
undergoes forced-exit instead of returning a value. -/
theorem C4_goexit_propagation {A B : Type} [DecidableEq A]
    {bIsAny : Bool} {s s' : GState A B} {k : A} {cid : Nat}
    {stack : List Char} (hw : WF s) (hreg : s.workspaces k = some cid)
    (h : step bIsAny s (Action.complete cid Outcome.goexit stack) =
      some s') :
    ∃ cF, s'.calls cid = some cF ∧ cF.done = true ∧
      cF.err = GoError.goexitSentinel ∧
      cF.effect = some CompletionEffect.goexitQuiet ∧
      s'.sent = s.sent ∧ s'.crashed = s.crashed ∧
      dupWake bIsAny cF = DupResult.goexited ∧
      initResult bIsAny cF = InitResult.goexited := by
  obtain ⟨c, hc, hd, hkey⟩ := hw.regValid k cid hreg
  rw [step_complete hc hd] at h
  injection h with h
  refine ⟨completeCall bIsAny stack Outcome.goexit c, ?_, rfl, rfl, rfl,
    ?_, ?_, rfl, rfl⟩
  · rw [← h]
    show (if cid = cid then
        some (completeCall bIsAny stack Outcome.goexit c)
      else s.calls cid) = _
    rw [if_pos rfl]
  · rw [← h]
    show s.sent ++ completeSends bIsAny stack Outcome.goexit c = s.sent
    rw [show completeSends bIsAny stack Outcome.goexit c = [] from rfl]
    exact List.append_nil s.sent
  · rw [← h]
    show (s.crashed ||
      ((completeCall bIsAny stack Outcome.goexit c).effect ==
        some CompletionEffect.crash)) = s.crashed
    rw [show ((completeCall bIsAny stack Outcome.goexit c).effect ==
      some CompletionEffect.crash) = false from rfl]
    exact Bool.or_false s.crashed

/-- Witness for C4: the call of `exJoin1` (key 0, one synchronous
joiner) force-exits. -/
theorem C4_goexit_propagation_witness :
    exJoin1.workspaces 0 = some 0 ∧
    (∃ cF, exGoexitDone.calls 0 = some cF ∧ cF.done = true ∧
      cF.err = GoError.goexitSentinel ∧
      cF.effect = some CompletionEffect.goexitQuiet ∧
      exGoexitDone.sent = exJoin1.sent ∧
      exGoexitDone.crashed = exJoin1.crashed ∧
      dupWake false cF = DupResult.goexited ∧
      initResult false cF = InitResult.goexited) :=
  ⟨rfl, C4_goexit_propagation (wf_run wf_empty
    (show run false exEmptyNN [Action.doJoin 0] = some exJoin1 from rfl))
    (show exJoin1.workspaces 0 = some 0 from rfl) rfl⟩

/-- C9: `Forget k` unconditionally removes the registry entry for `k`
under the lock while leaving the in-flight call record itself untouched
(`s1`); a join for `k` issued after the Forget — although the earlier
call is still running — starts a brand-new independent execution
(`createsNow` is true, and exactly one new execution starts over the
two actions), leaving both records in flight simultaneously (`s2`);
when the old call later completes, line 98's `workspaces[key] == c`
guard keeps it from evicting the new call's registry entry, and the old
record completes against its already-attached waiters unaffected
(`sF`).  In total the supplier runs twice for `k`: once for `cid`,
started before this window, and once for the fresh call. -/
theorem C9_forget_new_execution {A B : Type} [DecidableEq A]
    {bIsAny : Bool} {s s1 s2 sF : GState A B} {k : A} {cid : Nat}
    {o : Outcome B} {stack : List Char} (hw : WF s)
    (hreg : s.workspaces k = some cid)
    (h1 : step bIsAny s (Action.forget k) = some s1)
    (h2 : step bIsAny s1 (Action.doJoin k) = some s2)
    (h3 : step bIsAny s2 (Action.complete cid o stack) = some sF) :
    s1.workspaces k = none ∧ s1.calls cid = s.calls cid ∧
    cid ≠ s.nextCall ∧
    s2.workspaces k = some s.nextCall ∧
    s2.calls s.nextCall = some (newCall k) ∧
    s2.calls cid = s.calls cid ∧
    createsNow s1 (Action.doJoin k) k = true ∧
    creations bIsAny k s [Action.forget k, Action.doJoin k] = 1 ∧
    sF.workspaces k = some s.nextCall ∧
    sF.calls s.nextCall = some (newCall k) ∧
    ∃ c, s.calls cid = some c ∧ c.done = false ∧
      sF.calls cid = some (completeCall bIsAny stack o c) := by
  obtain ⟨c, hc, hd, hkey⟩ := hw.regValid k cid hreg
  have hlt := hw.callLt hc
  rw [step_forget] at h1
  injection h1 with e1
  have hws1 : s1.workspaces k = none := by
    rw [← e1]
    show (if k = k then none else s.workspaces k) = none
    rw [if_pos rfl]
  have hn1 : s1.nextCall = s.nextCall := by rw [← e1]
  have hcalls1 : s1.calls = s.calls := by rw [← e1]
  rw [step_doJoin_create hws1] at h2
  injection h2 with e2
  have hws2 : s2.workspaces k = some s.nextCall := by
    rw [← e2]
    show (if k = k then some s1.nextCall else s1.workspaces k) =
      some s.nextCall
    rw [if_pos rfl, hn1]
  have hcallsNew : s2.calls s.nextCall = some (newCall k) := by
    rw [← e2]
    show (if s.nextCall = s1.nextCall then some (newCall k)
      else s1.calls s.nextCall) = some (newCall k)
    rw [hn1, if_pos rfl]
  have hcid2 : s2.calls cid = some c := by
    rw [← e2]
    show (if cid = s1.nextCall then some (newCall k)
      else s1.calls cid) = some c
    rw [hn1, if_neg (by omega), hcalls1]
    exact hc
  rw [step_complete hcid2 hd] at h3
  injection h3 with e3
  have hwsF : sF.workspaces k = some s.nextCall := by
    rw [← e3]
    show (if s2.workspaces c.key = some cid ∧ k = c.key then none
      else s2.workspaces k) = some s.nextCall
    have hcond : ¬ (s2.workspaces c.key = some cid ∧ k = c.key) := by
      rintro ⟨ha, hb⟩
      rw [← hb, hws2] at ha
      injection ha with ha
      omega
    rw [if_neg hcond, hws2]
  have hcallsFN : sF.calls s.nextCall = some (newCall k) := by
    rw [← e3]
    show (if s.nextCall = cid then some (completeCall bIsAny stack o c)
      else s2.calls s.nextCall) = some (newCall k)
    rw [if_neg (by omega), hcallsNew]
  have hcallsFC : sF.calls cid = some (completeCall bIsAny stack o c) := by
    rw [← e3]
    show (if cid = cid then some (completeCall bIsAny stack o c)
      else s2.calls cid) = some (completeCall bIsAny stack o c)
    rw [if_pos rfl]
  have hreg1exp : ({ s with workspaces := fun k' =>
      if k' = k then none else s.workspaces k' } :
      GState A B).workspaces k = none := by
    show (if k = k then none else s.workspaces k) = none
    rw [if_pos rfl]
  have hcn1 : createsNow s1 (Action.doJoin k) k = true := by
    simp [createsNow, isJoinFor, hws1]
  refine ⟨hws1, by rw [← e1], by omega, hws2, hcallsNew,
    by rw [hcid2, hc], hcn1, ?_, hwsF, hcallsFN, c, hc, hd, hcallsFC⟩
  show (if createsNow s (Action.forget k) k then 1 else 0) +
    (match step bIsAny s (Action.forget k) with
     | some s' => creations bIsAny k s' [Action.doJoin k]
     | none => 0) = 1
  rw [step_forget]
  show (if createsNow s (Action.forget k) k then 1 else 0) +
    ((if createsNow ({ s with workspaces := fun k' =>
        if k' = k then none else s.workspaces k' } : GState A B)
        (Action.doJoin k) k then 1 else 0) +
      (match step bIsAny ({ s with workspaces := fun k' =>
          if k' = k then none else s.workspaces k' } : GState A B)
          (Action.doJoin k) with
       | some s' => creations bIsAny k s' []
       | none => 0)) = 1
  rw [step_doJoin_create hreg1exp]
  have hcn1e : createsNow ({ s with workspaces := fun k' =>
      if k' = k then none else s.workspaces k' } : GState A B)
      (Action.doJoin k) k = true := by
    simp [createsNow, isJoinFor, hreg1exp]
  have hcn0 : createsNow s (Action.forget k) k = false := rfl
  rw [hcn0, hcn1e]
  rfl

/-- Witness for C9: Forget while `exJoin1`'s call runs, rejoin, then
the old call completes normally. -/
theorem C9_forget_new_execution_witness :
    exJoin1.workspaces 0 = some 0 ∧
    (exC9s1.workspaces 0 = none ∧ exC9s1.calls 0 = exJoin1.calls 0 ∧
    (0 : Nat) ≠ exJoin1.nextCall ∧
    exC9s2.workspaces 0 = some exJoin1.nextCall ∧
    exC9s2.calls exJoin1.nextCall = some (newCall 0) ∧
    exC9s2.calls 0 = exJoin1.calls 0 ∧
    createsNow exC9s1 (Action.doJoin 0) 0 = true ∧
    creations false 0 exJoin1 [Action.forget 0, Action.doJoin 0] = 1 ∧
    exC9sF.workspaces 0 = some exJoin1.nextCall ∧
    exC9sF.calls exJoin1.nextCall = some (newCall 0) ∧
    ∃ c, exJoin1.calls 0 = some c ∧ c.done = false ∧
      exC9sF.calls 0 = some
        (completeCall false [] (Outcome.normal 4 GoError.nil) c)) :=
  ⟨rfl, C9_forget_new_execution (wf_run wf_empty
      (show run false exEmptyNN [Action.doJoin 0] = some exJoin1
        from rfl))
    (show exJoin1.workspaces 0 = some 0 from rfl) rfl rfl rfl⟩

/-- C5 counterexample: the claim promises that the channel returned by
`DoChan` eventually receives exactly one envelope.  When the supplier
terminates by `runtime.Goexit`, the completion runs to the end (record
done, quiet branch taken, registry cleaned) yet pushes nothing: the
returned channel 0 exists (created with capacity 1) but the send log
stays empty, and with the execution finished nothing will ever send on
it. -/
theorem C5_counterexample :
    (run false (GState.empty Nat Nat)
        [Action.doChanJoin 0, Action.complete 0 Outcome.goexit []]).map
      (fun s => (s.nextChan, s.chanCap 0, s.sent, s.crashed,
        (s.calls 0).map (fun c => (c.done, c.effect)))) =
      some (1, some 1, [], false,
        some (true, some CompletionEffect.goexitQuiet)) := rfl

/-- C5 amended: `DoChan` always returns immediately — its entry section
succeeds from any well-formed state, handing back a fresh channel of
capacity one, whether it starts a new call or attaches — and the
channel receives at most one envelope over the whole history: exactly
one when the call it is registered with completes through the
normal-return fan-out branch, and none on the forced-exit (or
process-crash) branches.  Nothing ever closes a channel in the
protocol. -/
theorem C5_amended_chan_delivery {A B : Type} [DecidableEq A]
    {bIsAny : Bool} {s sF : GState A B} {tr : List (Action A B)} {k : A}
    (hw : WF s) (h : run bIsAny s tr = some sF) :
    (∃ s1, step bIsAny s (Action.doChanJoin k) = some s1 ∧
      s1.nextChan = s.nextChan + 1 ∧
      s1.chanCap s.nextChan = some doChanBufferCap) ∧
    (∀ ch, sendCount sF.sent ch ≤ 1) ∧
    (∀ cid c ch, sF.calls cid = some c → c.done = true →
      c.effect = some CompletionEffect.normalFanout → ch ∈ c.chans →
      sendCount sF.sent ch = 1) := by
  have hwF := wf_run hw h
  refine ⟨?_, fun ch => sendCount_le_one hwF ch,
    fun cid c ch hc hd hf hm => sendCount_done_fanout hwF hc hd hf hm⟩
  cases hreg : s.workspaces k with
  | some cid =>
    obtain ⟨c, hc, hd, hkey⟩ := hw.regValid k cid hreg
    refine ⟨_, step_doChanJoin_attach hreg hc, rfl, ?_⟩
    show (if s.nextChan = s.nextChan then some 1 else s.chanCap
      s.nextChan) = some doChanBufferCap
    rw [if_pos rfl]
    rfl
  | none =>
    refine ⟨_, step_doChanJoin_create hreg, rfl, ?_⟩
    show (if s.nextChan = s.nextChan then some 1 else s.chanCap
      s.nextChan) = some doChanBufferCap
    rw [if_pos rfl]
    rfl

/-- Witness for the amended C5: one asynchronous join for key 0, normal
completion with value 7, probed at key 5. -/
theorem C5_amended_chan_delivery_witness :
    run false exEmptyNN [Action.doChanJoin 0,
        Action.complete 0 (Outcome.normal 7 GoError.nil) []] =
      some exC5Final ∧
    ((∃ s1, step false exEmptyNN (Action.doChanJoin 5) = some s1 ∧
      s1.nextChan = exEmptyNN.nextChan + 1 ∧
      s1.chanCap exEmptyNN.nextChan = some doChanBufferCap) ∧
    (∀ ch, sendCount exC5Final.sent ch ≤ 1) ∧
    (∀ cid c ch, exC5Final.calls cid = some c → c.done = true →
      c.effect = some CompletionEffect.normalFanout → ch ∈ c.chans →
      sendCount exC5Final.sent ch = 1)) :=
  ⟨rfl, C5_amended_chan_delivery wf_empty
    (show run false exEmptyNN [Action.doChanJoin 0,
      Action.complete 0 (Outcome.normal 7 GoError.nil) []] =
        some exC5Final from rfl)⟩

/-- C10: every channel `DoChan` has created carries buffer capacity one
(`make(chan ResultContainer[B], 1)`), and over its entire lifetime at
most one value is ever sent to it — at most its capacity — so the
completion's fan-out loop can never block on a full buffer, even if no
caller ever reads the channel. -/
theorem C10_chan_capacity_one_send {A B : Type} [DecidableEq A]
    {bIsAny : Bool} {s sF : GState A B} {tr : List (Action A B)}
    (hw : WF s) (h : run bIsAny s tr = some sF) :
    (∀ ch, ch < sF.nextChan ↔ sF.chanCap ch = some doChanBufferCap) ∧
    (∀ ch, sendCount sF.sent ch ≤ doChanBufferCap) := by
  have hwF := wf_run hw h
  exact ⟨hwF.capSet, fun ch => sendCount_le_one hwF ch⟩

/-- Witness for C10: asynchronous join for key 3, then the call
completes normally. -/
theorem C10_chan_capacity_one_send_witness :
    run false exEmptyNN [Action.doChanJoin 3,
        Action.complete 0 (Outcome.normal 2 GoError.nil) []] =
      some exC10Final ∧
    ((∀ ch, ch < exC10Final.nextChan ↔
      exC10Final.chanCap ch = some doChanBufferCap) ∧
    (∀ ch, sendCount exC10Final.sent ch ≤ doChanBufferCap)) :=
  ⟨rfl, C10_chan_capacity_one_send wf_empty
    (show run false exEmptyNN [Action.doChanJoin 3,
      Action.complete 0 (Outcome.normal 2 GoError.nil) []] =
        some exC10Final from rfl)⟩

/-- C1 counterexample: as stated the claim fails, because `Forget` can
intervene.  Key 0's call (record 0) is started and still running
(`done = false` throughout); a concurrent `Forget 0` plus a concurrent
join happen while it is in flight, and that join starts a brand-new
execution instead of attaching: one new supplier invocation starts in
the window (`creations = 1`), so two executions for key 0 run at once,
and the attached-duplicate count of record 0 stays 0. -/
theorem C1_counterexample :
    ((run false (GState.empty Nat Nat) [Action.doJoin 0]).map
      (fun s1 => (creations false 0 s1 [Action.forget 0, Action.doJoin 0],
        (s1.calls 0).map (fun c => c.done)))) = some (1, some false) ∧
    ((run false (GState.empty Nat Nat)
        [Action.doJoin 0, Action.forget 0, Action.doJoin 0]).map
      (fun s => ((s.calls 0).map (fun c => (c.done, c.dups)),
        (s.calls 1).map (fun c => c.done), s.nextCall))) =
      some (some (false, 0), some false, 2) :=
  ⟨rfl, rfl⟩

/-- C1 amended: provided no `Forget k` occurs in the window, the claim
holds.  While call `cid` for key `k` is in flight (registered and not
completed, over `tr1`), no new execution for `k` starts — the single
supplier invocation for the window is the one that created `cid` — and
every `Do`/`DoChan` join for `k` attaches to `cid`: the final
duplicate count grows by exactly the number of joins.  After the
completion, the record is write-once: every envelope delivered on any
of its registered channels is the one envelope built from the final
record, and both a woken synchronous duplicate and the initiating
caller, whenever they return a `(value, failure, shared)` triple at
all, return exactly the record's stored pair, the same for all
joiners. -/
theorem C1_amended_single_flight {A B : Type} [DecidableEq A]
    {bIsAny : Bool} {s sF : GState A B} {k : A} {cid : Nat}
    {c : CallState A B} {tr1 tr2 : List (Action A B)} {o : Outcome B}
    {stack : List Char} (hw : WF s)
    (hreg : s.workspaces k = some cid) (hc : s.calls cid = some c)
    (hnf : Action.forget k ∉ tr1)
    (hnc : ∀ o' stack', Action.complete cid o' stack' ∉ tr1)
    (h : run bIsAny s (tr1 ++ Action.complete cid o stack :: tr2) =
      some sF) :
    creations bIsAny k s tr1 = 0 ∧
    ∃ cF, sF.calls cid = some cF ∧ cF.done = true ∧
      cF.dups = c.dups + joinCount k tr1 ∧
      (∀ p, p ∈ sF.sent → p.1 ∈ cF.chans → p.2 = mkEnvelope cF) ∧
      (mkEnvelope cF).value = cF.val ∧ (mkEnvelope cF).Err = cF.err ∧
      (∀ v e sh, dupWake bIsAny cF = DupResult.returned v e sh →
        v = cF.val ∧ e = cF.err) ∧
      (∀ v e sh, initResult bIsAny cF = InitResult.returned v e sh →
        v = cF.val ∧ e = cF.err) := by
  obtain ⟨hcr, hwF, c1, hdup1, hk1, hv1, he1, hcF⟩ :=
    windowComplete hw hreg hc hnf hnc h
  refine ⟨hcr, completeCall bIsAny stack o c1, hcF, completeCall_done,
    ?_, fun p hp hm => sent_unique hwF hcF hp hm, rfl, rfl,
    fun v e sh hret => ⟨(dupWake_returned hret).1,
      (dupWake_returned hret).2.1⟩,
    fun v e sh hret => ⟨(initResult_returned hret).1,
      (initResult_returned hret).2.1⟩⟩
  rw [completeCall_dups, hdup1]

/-- Witness for the amended C1: call of `exJoin1` (key 0), one
synchronous duplicate joins during the window, normal completion with
value 7. -/
theorem C1_amended_single_flight_witness :
    (Action.forget 0 ∉ ([Action.doJoin 0] : List (Action Nat Nat))) ∧
    (creations false 0 exJoin1 [Action.doJoin 0] = 0 ∧
    ∃ cF, exC1Final.calls 0 = some cF ∧ cF.done = true ∧
      cF.dups = (newCall 0 : CallState Nat Nat).dups +
        joinCount 0 ([Action.doJoin 0] : List (Action Nat Nat)) ∧
      (∀ p, p ∈ exC1Final.sent → p.1 ∈ cF.chans →
        p.2 = mkEnvelope cF) ∧
      (mkEnvelope cF).value = cF.val ∧ (mkEnvelope cF).Err = cF.err ∧
      (∀ v e sh, dupWake false cF = DupResult.returned v e sh →
        v = cF.val ∧ e = cF.err) ∧
      (∀ v e sh, initResult false cF = InitResult.returned v e sh →
        v = cF.val ∧ e = cF.err)) :=
  ⟨by simp, C1_amended_single_flight (wf_run wf_empty
      (show run false exEmptyNN [Action.doJoin 0] = some exJoin1
        from rfl))
    (show exJoin1.workspaces 0 = some 0 from rfl)
    (show exJoin1.calls 0 = some (newCall 0) from rfl)
    (by simp) (by intro o' stack'; simp)
    (show run false exJoin1 ([Action.doJoin 0] ++
        Action.complete 0 (Outcome.normal 7 GoError.nil) [] :: []) =
      some exC1Final from rfl)⟩

/-- C6: for a call created with `dups = 0` (the initiator being its
only joiner so far) and completed after window `tr1`, the final
duplicate count equals the number of other callers that joined before
completion, and every observed shared flag tells exactly whether such a
joiner exists: the initiating caller's triple carries
`shared = (dups > 0)`; every envelope delivered on the call's channels
carries `Shared = (dups > 0)`; and a woken synchronous duplicate's
triple always carries `shared = true` (its own existence implies
another joiner, the initiator). -/
theorem C6_was_shared_iff {A B : Type} [DecidableEq A] {bIsAny : Bool}
    {s sF : GState A B} {k : A} {cid : Nat} {c : CallState A B}
    {tr1 tr2 : List (Action A B)} {o : Outcome B} {stack : List Char}
    (hw : WF s) (hreg : s.workspaces k = some cid)
    (hc : s.calls cid = some c) (hd0 : c.dups = 0)
    (hnf : Action.forget k ∉ tr1)
    (hnc : ∀ o' stack', Action.complete cid o' stack' ∉ tr1)
    (h : run bIsAny s (tr1 ++ Action.complete cid o stack :: tr2) =
      some sF) :
    ∃ cF, sF.calls cid = some cF ∧ cF.done = true ∧
      cF.dups = joinCount k tr1 ∧
      (∀ v e sh, initResult bIsAny cF = InitResult.returned v e sh →
        sh = decide (cF.dups > 0)) ∧
      (∀ v e sh, dupWake bIsAny cF = DupResult.returned v e sh →
        sh = true) ∧
      (∀ p, p ∈ sF.sent → p.1 ∈ cF.chans →
        p.2.Shared = decide (cF.dups > 0)) ∧
      (decide (cF.dups > 0) = true ↔ 1 ≤ joinCount k tr1) :=
  sharedFlag_master hw hreg hc hd0 hnf hnc h

/-- Witness for C6: call of `exJoin1` (key 0, created with zero
duplicates), one asynchronous duplicate attaches during the window,
normal completion with value 5. -/
theorem C6_was_shared_iff_witness :
    (newCall 0 : CallState Nat Nat).dups = 0 ∧
    (∃ cF, exC6Final.calls 0 = some cF ∧ cF.done = true ∧
      cF.dups = joinCount 0
        ([Action.doChanJoin 0] : List (Action Nat Nat)) ∧
      (∀ v e sh, initResult false cF = InitResult.returned v e sh →
        sh = decide (cF.dups > 0)) ∧
      (∀ v e sh, dupWake false cF = DupResult.returned v e sh →
        sh = true) ∧
      (∀ p, p ∈ exC6Final.sent → p.1 ∈ cF.chans →
        p.2.Shared = decide (cF.dups > 0)) ∧
      (decide (cF.dups > 0) = true ↔
        1 ≤ joinCount 0 ([Action.doChanJoin 0] : List (Action Nat Nat)))) :=
  ⟨rfl, C6_was_shared_iff (wf_run wf_empty
      (show run false exEmptyNN [Action.doJoin 0] = some exJoin1
        from rfl))
    (show exJoin1.workspaces 0 = some 0 from rfl)
    (show exJoin1.calls 0 = some (newCall 0) from rfl) rfl
    (by simp) (by intro o' stack'; simp)
    (show run false exJoin1 ([Action.doChanJoin 0] ++
        Action.complete 0 (Outcome.normal 5 GoError.nil) [] :: []) =
      some exC6Final from rfl)⟩

/-- C7 counterexample: two synchronous joiners for key 0, the supplier
returns (7, nil).  Both joiners' results carry `was_shared = true`: the
initiator returns `c.dups > 0 = true` (one duplicate attached) and the
duplicate returns the literal `true` of `Do` line 38.  The number of
joiners whose result carries `was_shared = false` is therefore 0 for
this execution, not 1 as the claim demands. -/
theorem C7_counterexample :
    ((run false (GState.empty Nat Nat)
        [Action.doJoin 0, Action.doJoin 0,
         Action.complete 0 (Outcome.normal 7 GoError.nil) []]).bind
      (fun s => s.calls 0)).map
      (fun cF => (cF.dups, initResult false cF, dupWake false cF)) =
      some (1, InitResult.returned (some 7) GoError.nil true,
        DupResult.returned (some 7) GoError.nil true) ∧
    ((run false (GState.empty Nat Nat)
        [Action.doJoin 0, Action.doJoin 0,
         Action.complete 0 (Outcome.normal 7 GoError.nil) []]).bind
      (fun s => s.calls 0)).map
      (fun cF =>
        ((match initResult false cF with
          | InitResult.returned _ _ sh => [sh]
          | _ => []) ++
         (match dupWake false cF with
          | DupResult.returned _ _ sh => [sh]
          | _ => [])).count false) = some 0 :=
  ⟨rfl, rfl⟩

/-- C7 amended: for a single execution with at least two joiners (the
initiator plus at least one attached duplicate), the number of joiners
whose result carries `was_shared = false` is exactly zero: the
initiator's triple, every woken duplicate's triple, and every delivered
envelope all carry the flag `true`. -/
theorem C7_amended_no_false_flags {A B : Type} [DecidableEq A]
    {bIsAny : Bool} {s sF : GState A B} {k : A} {cid : Nat}
    {c : CallState A B} {tr1 tr2 : List (Action A B)} {o : Outcome B}
    {stack : List Char} (hw : WF s) (hreg : s.workspaces k = some cid)
    (hc : s.calls cid = some c) (hd0 : c.dups = 0)
    (hj : 1 ≤ joinCount k tr1) (hnf : Action.forget k ∉ tr1)
    (hnc : ∀ o' stack', Action.complete cid o' stack' ∉ tr1)
    (h : run bIsAny s (tr1 ++ Action.complete cid o stack :: tr2) =
      some sF) :
    ∃ cF, sF.calls cid = some cF ∧ cF.done = true ∧
      (∀ v e sh, initResult bIsAny cF = InitResult.returned v e sh →
        sh = true) ∧
      (∀ v e sh, dupWake bIsAny cF = DupResult.returned v e sh →
        sh = true) ∧
      (∀ p, p ∈ sF.sent → p.1 ∈ cF.chans → p.2.Shared = true) := by
  obtain ⟨cF, hcF, hdone, hdups, hinit, hdup, hsent, hiff⟩ :=
    sharedFlag_master hw hreg hc hd0 hnf hnc h
  have htrue : decide (cF.dups > 0) = true := hiff.mpr hj
  refine ⟨cF, hcF, hdone, ?_, hdup, ?_⟩
  · intro v e sh hret
    rw [hinit v e sh hret, htrue]
  · intro p hp hm
    rw [hsent p hp hm, htrue]

/-- Witness for the amended C7: two synchronous joiners, normal
completion with value 9. -/
theorem C7_amended_no_false_flags_witness :
    1 ≤ joinCount 0 ([Action.doJoin 0] : List (Action Nat Nat)) ∧
    (∃ cF, exC7Final.calls 0 = some cF ∧ cF.done = true ∧
      (∀ v e sh, initResult false cF = InitResult.returned v e sh →
        sh = true) ∧
      (∀ v e sh, dupWake false cF = DupResult.returned v e sh →
        sh = true) ∧
      (∀ p, p ∈ exC7Final.sent → p.1 ∈ cF.chans →
        p.2.Shared = true)) :=
  ⟨by decide, C7_amended_no_false_flags (wf_run wf_empty
      (show run false exEmptyNN [Action.doJoin 0] = some exJoin1
        from rfl))
    (show exJoin1.workspaces 0 = some 0 from rfl)
    (show exJoin1.calls 0 = some (newCall 0) from rfl) rfl
    (by decide) (by simp) (by intro o' stack'; simp)
    (show run false exJoin1 ([Action.doJoin 0] ++
        Action.complete 0 (Outcome.normal 9 GoError.nil) [] :: []) =
      some exC7Final from rfl)⟩

end Claims

end Singleflight
